import Mathlib

/-!
Verification development for the googleMapInfo repository.

The crawler in src/crowl.py is embedded shallowly: URL strings are lists of
characters, the URL functions follow urllib.parse (CPython 3.11: urlsplit,
urlparse, urlunsplit, urlunparse, urljoin), the page fetcher is modelled as a
finite association list from URL to page content (absence meaning any fetch
failure) behind the gate requests imposes before touching the network (the
http/https adapter prefix check and the nonempty-host check, whose exceptions
the crawl loop swallows like any fetch failure), and the crawl loop is a
fuel-indexed step function over an explicit state (visited set, frontier,
emitted records, fetch log, sleep and iteration counters).  The driving script of crowl.py (store-row selection and skipping)
is embedded over an abstract spreadsheet row type.
-/

namespace GoogleMapInfo

/-- Type of the character strings manipulated by the embedded code. -/
abbrev Str := List Char

/-- Coerce a Lean string literal to the character-list representation. -/
def txt (s : String) : Str := s.data

/-! ### Generic string helpers mirroring Python primitives -/

/-- Test whether the pattern is an initial run of the string
(Python s.startswith, used to implement substring search). -/
def startsWithSub : Str → Str → Bool
  | [], _ => true
  | _ :: _, [] => false
  | p :: ps, c :: cs => p == c && startsWithSub ps cs

/-- Test whether the pattern occurs as a contiguous substring
(Python, the operator "pat in s" on strings). -/
def containsSub (pat : Str) : Str → Bool
  | [] => startsWithSub pat []
  | c :: cs => startsWithSub pat (c :: cs) || containsSub pat cs

/-- Split a string on a separator character (Python s.split(c)): the empty
string yields one empty field, and every separator opens a new field. -/
def splitOnChar (c : Char) : Str → List Str
  | [] => [[]]
  | x :: xs =>
    let r := splitOnChar c xs
    if x = c then [] :: r
    else
      match r with
      | [] => [[x]]
      | s :: ss => (x :: s) :: ss

/-! ### urllib.parse constants (CPython 3.11) -/

/-- Characters admissible in a URL scheme (urllib.parse.scheme_chars). -/
def schemeChars : Str :=
  txt (r"abcdefghijklmnopqrstuvwxyzABCDEFGHIJKLMNOPQRSTUVWXYZ0123456789+-.")

/-- ASCII letters: the characters passing Python
c.isascii() and c.isalpha(). -/
def asciiLetters : Str :=
  txt (r"abcdefghijklmnopqrstuvwxyzABCDEFGHIJKLMNOPQRSTUVWXYZ")

/-- Upper-to-lower pairs realising Python str.lower on ASCII letters
(the only characters the embedded code ever lowercases). -/
def lowerPairs : List (Char × Char) :=
  [('A', 'a'), ('B', 'b'), ('C', 'c'), ('D', 'd'), ('E', 'e'), ('F', 'f'),
   ('G', 'g'), ('H', 'h'), ('I', 'i'), ('J', 'j'), ('K', 'k'), ('L', 'l'),
   ('M', 'm'), ('N', 'n'), ('O', 'o'), ('P', 'p'), ('Q', 'q'), ('R', 'r'),
   ('S', 's'), ('T', 't'), ('U', 'u'), ('V', 'v'), ('W', 'w'), ('X', 'x'),
   ('Y', 'y'), ('Z', 'z')]

/-- Lowercase one character (identity outside the uppercase ASCII range). -/
def lowerChar (c : Char) : Char :=
  match lowerPairs.find? (fun p => p.1 == c) with
  | some p => p.2
  | none => c

/-- Schemes relative references may be resolved against
(urllib.parse.uses_relative). -/
def usesRelative : List Str :=
  [txt (r""), txt (r"ftp"), txt (r"http"), txt (r"gopher"), txt (r"nntp"),
   txt (r"imap"), txt (r"wais"), txt (r"file"), txt (r"https"), txt (r"shttp"),
   txt (r"mms"), txt (r"prospero"), txt (r"rtsp"), txt (r"rtsps"),
   txt (r"rtspu"), txt (r"sftp"), txt (r"svn"), txt (r"svn+ssh"), txt (r"ws"),
   txt (r"wss")]

/-- Schemes that use a network location component
(urllib.parse.uses_netloc). -/
def usesNetloc : List Str :=
  [txt (r""), txt (r"ftp"), txt (r"http"), txt (r"gopher"), txt (r"nntp"),
   txt (r"telnet"), txt (r"imap"), txt (r"wais"), txt (r"file"), txt (r"mms"),
   txt (r"https"), txt (r"shttp"), txt (r"snews"), txt (r"prospero"),
   txt (r"rtsp"), txt (r"rtsps"), txt (r"rtspu"), txt (r"rsync"),
   txt (r"svn"), txt (r"svn+ssh"), txt (r"sftp"), txt (r"nfs"), txt (r"git"),
   txt (r"git+ssh"), txt (r"ws"), txt (r"wss")]

/-- Schemes whose path may carry ;-parameters (urllib.parse.uses_params). -/
def usesParams : List Str :=
  [txt (r""), txt (r"ftp"), txt (r"hdl"), txt (r"prospero"), txt (r"http"),
   txt (r"imap"), txt (r"https"), txt (r"shttp"), txt (r"rtsp"),
   txt (r"rtsps"), txt (r"rtspu"), txt (r"sip"), txt (r"sips"), txt (r"mms"),
   txt (r"sftp"), txt (r"tel")]

/-! ### urlsplit / urlparse -/

/-- C0 control characters and space, stripped per the WHATWG URL spec
(urllib.parse._WHATWG_C0_CONTROL_OR_SPACE). -/
def c0OrSpace (c : Char) : Bool := c.toNat ≤ 32

/-- Strip a character class from both ends (Python str.strip). -/
def stripBoth (p : Char → Bool) (s : Str) : Str :=
  ((s.dropWhile p).reverse.dropWhile p).reverse

/-- Remove tab, carriage return, and line feed everywhere
(urllib.parse._UNSAFE_URL_BYTES_TO_REMOVE). -/
def removeUnsafe (s : Str) : Str :=
  s.filter (fun c => !(c == '\t' || c == '\r' || c == '\n'))

/-- Validity test for a candidate scheme run before the first colon: nonempty,
leading ASCII letter, and only scheme characters (the loop in urlsplit). -/
def schemeOkB (pre : Str) : Bool :=
  match pre with
  | [] => false
  | c :: _ => decide (c ∈ asciiLetters) && pre.all (fun x => decide (x ∈ schemeChars))

/-- Characters terminating the network-location component
(urllib.parse._splitnetloc). -/
def netlocDelim (c : Char) : Bool := c == '/' || c == '?' || c == '#'

/-- Split off the network location when the string starts with a double slash
(urlsplit; the ValueError paths for malformed IPv6 brackets are not modelled,
the function is total). -/
def splitNetloc (s : Str) : Str × Str :=
  if s.take 2 = ['/', '/'] then
    ((s.drop 2).takeWhile (fun c => !netlocDelim c),
     (s.drop 2).dropWhile (fun c => !netlocDelim c))
  else ([], s)

/-- Split at the first hash sign: remainder and fragment
(url.split with separator hash, count 1; empty fragment when absent). -/
def splitFragment (s : Str) : Str × Str :=
  (s.takeWhile (fun c => c != '#'), (s.dropWhile (fun c => c != '#')).drop 1)

/-- Split at the first question mark: remainder and query. -/
def splitQuery (s : Str) : Str × Str :=
  (s.takeWhile (fun c => c != '?'), (s.dropWhile (fun c => c != '?')).drop 1)

/-- Split ;-parameters off the last path segment
(urllib.parse._splitparams). -/
def splitParams (s : Str) : Str × Str :=
  let lastSeg := (s.reverse.takeWhile (fun c => c != '/')).reverse
  if ';' ∈ lastSeg then
    (s.take (s.length - lastSeg.length) ++ lastSeg.takeWhile (fun c => c != ';'),
     (lastSeg.dropWhile (fun c => c != ';')).drop 1)
  else (s, [])

/-- Result of urlparse: the six URL components. -/
structure UrlParts where
  scheme : Str
  netloc : Str
  path : Str
  params : Str
  query : Str
  fragment : Str
deriving DecidableEq, Repr

/-- Parse a URL into six components, with a default scheme
(urllib.parse.urlparse composed with urlsplit, allow_fragments true). -/
def urlparse (dflt url : Str) : UrlParts :=
  let u0 := removeUnsafe (url.dropWhile c0OrSpace)
  let d := removeUnsafe (stripBoth c0OrSpace dflt)
  let pre := u0.takeWhile (fun c => c != ':')
  let hasScheme := decide (':' ∈ u0) && schemeOkB pre
  let scheme := if hasScheme then pre.map lowerChar else d
  let r1 := if hasScheme then (u0.dropWhile (fun c => c != ':')).drop 1 else u0
  let nl := splitNetloc r1
  let fr := splitFragment nl.2
  let qr := splitQuery fr.1
  let pp := if scheme ∈ usesParams then splitParams qr.1 else (qr.1, [])
  ⟨scheme, nl.1, pp.1, pp.2, qr.2, fr.2⟩

/-! ### urlunsplit / urlunparse / urljoin -/

/-- Reassemble five components into a URL string
(urllib.parse.urlunsplit, CPython 3.11). -/
def urlunsplit (scheme netloc path query fragment : Str) : Str :=
  let u :=
    if netloc ≠ [] ∨ (scheme ≠ [] ∧ scheme ∈ usesNetloc ∧ path.take 2 ≠ ['/', '/']) then
      ['/', '/'] ++ netloc ++ (if path ≠ [] ∧ path.take 1 ≠ ['/'] then '/' :: path else path)
    else path
  let u := if scheme ≠ [] then scheme ++ ':' :: u else u
  let u := if query ≠ [] then u ++ '?' :: query else u
  if fragment ≠ [] then u ++ '#' :: fragment else u

/-- Reassemble six components (urllib.parse.urlunparse). -/
def urlunparse (p : UrlParts) : Str :=
  urlunsplit p.scheme p.netloc
    (if p.params ≠ [] then p.path ++ ';' :: p.params else p.path) p.query p.fragment

/-- Drop empty segments strictly between the first and the last one
(the slice assignment with filter in urljoin). -/
def keepEnds (l : List Str) : List Str :=
  match l with
  | [] => []
  | [a] => [a]
  | a :: rest => a :: ((rest.dropLast.filter (fun s => !s.isEmpty)) ++ rest.drop (rest.length - 1))

/-- One step of relative-path resolution (the segment loop in urljoin):
dot-dot pops, dot is skipped, anything else is appended. -/
def resolveSeg (acc : List Str) (seg : Str) : List Str :=
  if seg = ['.', '.'] then acc.dropLast
  else if seg = ['.'] then acc
  else acc ++ [seg]

/-- Join a base URL and a possibly relative URL
(urllib.parse.urljoin, CPython 3.11, allow_fragments true). -/
def urljoin (base url : Str) : Str :=
  if base = [] then url
  else if url = [] then base
  else
    let b := urlparse [] base
    let u := urlparse b.scheme url
    if u.scheme ≠ b.scheme ∨ u.scheme ∉ usesRelative then url
    else if u.scheme ∈ usesNetloc ∧ u.netloc ≠ [] then urlunparse u
    else
      let nl := if u.scheme ∈ usesNetloc then b.netloc else u.netloc
      if u.path = [] ∧ u.params = [] then
        urlunparse ⟨u.scheme, nl, b.path, b.params,
          if u.query = [] then b.query else u.query, u.fragment⟩
      else
        let baseParts0 := splitOnChar '/' b.path
        let baseParts :=
          if baseParts0.getLast? ≠ some [] then baseParts0.dropLast else baseParts0
        let segments :=
          if u.path.take 1 = ['/'] then splitOnChar '/' u.path
          else keepEnds (baseParts ++ splitOnChar '/' u.path)
        let resolved := segments.foldl resolveSeg []
        let resolved :=
          if segments.getLast? = some ['.'] ∨ segments.getLast? = some ['.', '.'] then
            resolved ++ [[]]
          else resolved
        let joined := List.intercalate ['/'] resolved
        urlunparse ⟨u.scheme, nl, if joined = [] then ['/'] else joined,
          u.params, u.query, u.fragment⟩

/-! ### The crawler (src/crowl.py) -/

/-- Wellformedness check on a URL (is_valid_url in crowl.py: parse succeeds
with truthy scheme and netloc). -/
def isValidUrl (u : Str) : Bool :=
  let p := urlparse [] u
  !p.scheme.isEmpty && !p.netloc.isEmpty

/-- Content of a successfully fetched page, as the crawler observes it through
BeautifulSoup: the extracted title and the href attributes of the anchor tags
(an absent href attribute is modelled as the empty string, which the crawler
skips exactly like Python skips None). -/
structure Page where
  title : Str
  hrefs : List Str
deriving DecidableEq, Repr

/-- The reachable web: a finite table from URL to page content.  A URL without
an entry stands for any fetch failure (network error, timeout, or a status
that raise_for_status turns into an exception). -/
abbrev Web := List (Str × Page)

/-- Scheme gate of requests: Session.get_adapter returns a connection adapter
only when the lowercased URL starts with a mounted prefix, http:// or
https://, and raises InvalidSchema otherwise.  The lowercasing is modelled on
ASCII letters, which decides these two prefixes exactly. -/
def requestableUrl (u : Str) : Bool :=
  startsWithSub (txt (r"http://")) (u.map lowerChar) ||
  startsWithSub (txt (r"https://")) (u.map lowerChar)

/-- Precondition for requests.get to reach the network at all: the adapter
scheme gate, and a nonempty network location (PreparedRequest.prepare_url
raises InvalidURL when the URL supplies no host; a nonempty host implies a
nonempty netloc, so this gate is the permissive sound abstraction).  Both
exceptions are swallowed by the crawl loop's except branch. -/
def fetchable (u : Str) : Bool :=
  requestableUrl u && !(urlparse [] u).netloc.isEmpty

/-- Network lookup: the first table entry with the given URL, none when the
server does not answer with a page. -/
def lookupPage : Web → Str → Option Page
  | [], _ => none
  | (u, p) :: rest, v => if u = v then some p else lookupPage rest v

/-- Fetch a page (requests.get followed by raise_for_status): fails outright
on URLs requests cannot request (wrong scheme or missing host), otherwise
looks the URL up in the web table. -/
def fetchPage (web : Web) (v : Str) : Option Page :=
  if fetchable v = true then lookupPage web v else none

/-- One emitted record of crawl_website: page URL, title, and the Instagram
links joined with a comma separator. -/
structure PageRecord where
  pageURL : Str
  title : Str
  instagram : Str
deriving DecidableEq, Repr

/-- Marker substring classifying a link as an Instagram link. -/
def instagramMarker : Str := txt (r"instagram.com")

/-- Canonical URL rebuilt from a parse: scheme, separator, netloc, path
(the clean_href f-string in crawl_website). -/
def cleanHref (p : UrlParts) : Str := p.scheme ++ txt (r"://") ++ p.netloc ++ p.path

/-- Add an element to a set modelled as a duplicate-free list in insertion
order (Python set.add; the iteration order of the set is modelled as insertion
order). -/
def setAdd (s : List Str) (x : Str) : List Str := if x ∈ s then s else s ++ [x]

/-- Process one anchor href of the page being visited: skip empty hrefs,
resolve against the current URL, strip query and fragment, collect Instagram
links, and append fresh same-domain links to the frontier.  The accumulator
carries the Instagram set and the frontier. -/
def processHref (baseNl current : Str) (visited : List Str)
    (acc : List Str × List Str) (href : Str) : List Str × List Str :=
  if href = [] then acc
  else
    let p := urlparse [] (urljoin current href)
    let clean := cleanHref p
    if containsSub instagramMarker p.netloc = true then (setAdd acc.1 clean, acc.2)
    else if p.netloc = baseNl then
      if clean ∉ visited ∧ clean ∉ acc.2 then (acc.1, acc.2 ++ [clean]) else acc
    else acc

/-- State of the crawl loop: visited set (insertion order), frontier,
emitted records, the log of URLs passed to the fetcher, the number of executed
one-second sleeps, and the number of executed loop iterations. -/
structure CrawlState where
  visited : List Str
  toVisit : List Str
  pages : List PageRecord
  fetched : List Str
  sleeps : Nat
  iters : Nat
deriving DecidableEq, Repr

/-- One iteration of the while loop of crawl_website: pop the head of the
frontier; discard it if already visited; otherwise mark it visited, fetch it
(logging the attempt), on failure continue, on success process the links,
emit the record, and sleep one second. -/
def crawlStep (web : Web) (baseNl : Str) (st : CrawlState) : CrawlState :=
  match st.toVisit with
  | [] => st
  | current :: rest =>
    if current ∈ st.visited then
      { st with toVisit := rest, iters := st.iters + 1 }
    else
      let visited' := st.visited ++ [current]
      match fetchPage web current with
      | none =>
        { visited := visited', toVisit := rest, pages := st.pages,
          fetched := st.fetched ++ [current], sleeps := st.sleeps,
          iters := st.iters + 1 }
      | some pg =>
        let r := pg.hrefs.foldl (processHref baseNl current visited') ([], rest)
        { visited := visited', toVisit := r.2,
          pages := st.pages ++ [⟨current, pg.title, List.intercalate (txt (r", ")) r.1⟩],
          fetched := st.fetched ++ [current], sleeps := st.sleeps + 1,
          iters := st.iters + 1 }

/-- Run the crawl loop for at most the given number of iterations, stopping
early when the frontier is exhausted. -/
def crawlRun (web : Web) (baseNl : Str) : Nat → CrawlState → CrawlState
  | 0, st => st
  | fuel + 1, st =>
    match st.toVisit with
    | [] => st
    | _ :: _ => crawlRun web baseNl fuel (crawlStep web baseNl st)

/-- Domain of the root URL (base_netloc in crawl_website). -/
def baseNetloc (root : Str) : Str := (urlparse [] root).netloc

/-- Initial crawl state: empty visited set, frontier seeded with the raw root
URL, nothing emitted yet. -/
def crawlInit (root : Str) : CrawlState := ⟨[], [root], [], [], 0, 0⟩

/-- Records returned by crawl_website after the given number of iterations. -/
def crawlWebsite (web : Web) (root : Str) (fuel : Nat) : List PageRecord :=
  (crawlRun web (baseNetloc root) fuel (crawlInit root)).pages

/-! ### The driving script of crowl.py (store table processing) -/

/-- Value read from one spreadsheet cell: NaN or a string. -/
inductive CellValue where
  | nan
  | text (s : Str)
deriving DecidableEq, Repr

/-- One store row; a field is none when the column is absent from the row
(row.get then returns the supplied default). -/
structure StoreRow where
  name : Option CellValue
  website : Option CellValue
deriving DecidableEq, Repr

/-- Read a cell with the empty-string default (row.get with default). -/
def cellGet (c : Option CellValue) : CellValue := c.getD (.text [])

/-- Sentinel website values skipped by the driving script. -/
def sentinelWebsites : List Str := [txt (r"なし"), txt (r"エラー"), txt (r"")]

/-- One output row of the driving script. -/
structure ResultRow where
  storeName : CellValue
  storeURL : Str
  pageURL : Str
  title : Str
  instagram : Str
deriving DecidableEq, Repr

/-- Records contributed by one store row: none when the website value is NaN,
a sentinel, or an invalid URL; otherwise one record per crawled page. -/
def storeRecords (web : Web) (fuel : Nat) (row : StoreRow) : List ResultRow :=
  match cellGet row.website with
  | .nan => []
  | .text w =>
    if w ∈ sentinelWebsites then []
    else if isValidUrl w = false then []
    else (crawlWebsite web w fuel).map
      (fun p => ⟨cellGet row.name, w, p.pageURL, p.title, p.instagram⟩)

/-- Concatenated records of a list of store rows (the main loop). -/
def runStores (web : Web) (fuel : Nat) (rows : List StoreRow) : List ResultRow :=
  (rows.map (storeRecords web fuel)).flatten

/-- Row selection of the driving script: 1-indexed start position and count
(iloc with the half-open range). -/
def selectRows (start count : Nat) (rows : List StoreRow) : List StoreRow :=
  (rows.drop (start - 1)).take count

/-- Output of the driving script for the selected range. -/
def mainResults (web : Web) (fuel start count : Nat) (rows : List StoreRow) : List ResultRow :=
  runStores web fuel (selectRows start count rows)

/-! ### Notions used to state the claims -/

/-- Canonical forms of the links of a page fetched at a given URL: what the
crawler may append to the frontier while visiting that page. -/
def cleansOf (current : Str) (hrefs : List Str) : List Str :=
  hrefs.map (fun h => cleanHref (urlparse [] (urljoin current h)))

/-- Every URL the crawl can ever place on the frontier: the root plus the
canonical links of every page of the web. -/
def urlUniverse (web : Web) (root : Str) : List Str :=
  root :: (web.map (fun e => cleansOf e.1 e.2.hrefs)).flatten

/-- Invariant of the crawl loop: visited and frontier are duplicate free and
disjoint, both live inside the URL universe, and the fetch log coincides with
the visited list. -/
def GoodState (web : Web) (root : Str) (st : CrawlState) : Prop :=
  st.visited.Nodup ∧ st.toVisit.Nodup ∧
  (∀ u ∈ st.toVisit, u ∉ st.visited) ∧
  (∀ u ∈ st.toVisit, u ∈ urlUniverse web root) ∧
  (∀ u ∈ st.visited, u ∈ urlUniverse web root) ∧
  st.fetched = st.visited

/-- Termination measure of the crawl loop: unvisited capacity of the universe,
weighted, plus the current frontier length. -/
def crawlMeasure (web : Web) (root : Str) (st : CrawlState) : Nat :=
  ((urlUniverse web root).dedup.length - st.visited.length) *
    ((urlUniverse web root).dedup.length + 1) + st.toVisit.length

/-- Two URL strings differing at most in query and fragment: their parses
agree on scheme, netloc, path, and params. -/
def sameUpToQueryFragment (u v : Str) : Prop :=
  (urlparse [] u).scheme = (urlparse [] v).scheme ∧
  (urlparse [] u).netloc = (urlparse [] v).netloc ∧
  (urlparse [] u).path = (urlparse [] v).path ∧
  (urlparse [] u).params = (urlparse [] v).params

/-- Condition under which the driving script skips a store row before even
validating the URL: the website cell reads as NaN, as a sentinel string, or
as empty (an absent column also reads as empty via the get default). -/
def websiteMissing (row : StoreRow) : Prop :=
  match cellGet row.website with
  | .nan => True
  | .text w => w ∈ sentinelWebsites

/-! ### Concrete webs used by examples and counterexamples -/

/-- Seed URL of the breadth-first example. -/
def bfsRoot : Str := txt (r"http://s.test/")

/-- Web of the breadth-first example: the seed links to B and C, B links
to D. -/
def webBfs : Web :=
  [(txt (r"http://s.test/"), ⟨txt (r"Seed"), [txt (r"/b"), txt (r"/c")]⟩),
   (txt (r"http://s.test/b"), ⟨txt (r"B"), [txt (r"/d")]⟩),
   (txt (r"http://s.test/c"), ⟨txt (r"C"), []⟩),
   (txt (r"http://s.test/d"), ⟨txt (r"D"), []⟩)]

/-- Root URL with a scheme outside uses_relative. -/
def weirdRoot : Str := txt (r"weird://h/p")

/-- Root URL carrying a query string. -/
def queryRoot : Str := txt (r"http://h/p?q=1")

/-- Web whose root page links to the canonical twin of the root. -/
def webQuery : Web := [(txt (r"http://h/p?q=1"), ⟨txt (r"T"), [txt (r"http://h/p")]⟩)]

/-- Root URL on the Instagram host. -/
def instaRoot : Str := txt (r"https://instagram.com/")

/-- Web rooted on the Instagram host, with two same-host links. -/
def webInsta : Web :=
  [(txt (r"https://instagram.com/"),
    ⟨txt (r"I"), [txt (r"/store"), txt (r"https://instagram.com/other")]⟩)]

/-! ### Theorems -/

/-- C2: crawl_website emits page records in breadth-first order: for a seed
page linking to B and C, with B linking to D, the emitted record order is
seed, B, C, D — and not seed, B, D, C. -/
theorem C2_bfs_emission_order :
    (crawlWebsite webBfs bfsRoot 10).map PageRecord.pageURL =
      [txt (r"http://s.test/"), txt (r"http://s.test/b"),
       txt (r"http://s.test/c"), txt (r"http://s.test/d")] ∧
    (crawlWebsite webBfs bfsRoot 10).map PageRecord.pageURL ≠
      [txt (r"http://s.test/"), txt (r"http://s.test/b"),
       txt (r"http://s.test/d"), txt (r"http://s.test/c")] := by
  constructor
  · decide
  · decide

/-- C5 counterexample: with the seed http://h/p?q=1 whose page links to
http://h/p, the canonical twin differing from the visited seed only by the
query string is enqueued after one iteration and fetched at the second, so
the claim fails for the seed root URL. -/
theorem C5_counterexample_seed_not_normalized :
    (crawlRun webQuery (baseNetloc queryRoot) 1 (crawlInit queryRoot)).visited =
      [txt (r"http://h/p?q=1")] ∧
    (crawlRun webQuery (baseNetloc queryRoot) 1 (crawlInit queryRoot)).toVisit =
      [txt (r"http://h/p")] ∧
    sameUpToQueryFragment (txt (r"http://h/p?q=1")) (txt (r"http://h/p")) ∧
    txt (r"http://h/p?q=1") ≠ txt (r"http://h/p") ∧
    (crawlRun webQuery (baseNetloc queryRoot) 2 (crawlInit queryRoot)).fetched =
      [txt (r"http://h/p?q=1"), txt (r"http://h/p")] := by
  refine ⟨by decide, by decide, ⟨by decide, by decide, by decide, by decide⟩,
    by decide, by decide⟩

/-- C3 counterexample: the base weird://h/p passes is_valid_url, yet the
nonempty href x normalizes to ://x, which has empty scheme and empty host
after re-parsing: the normalization output is not an absolute URL. -/
theorem C3_counterexample_not_absolute :
    isValidUrl weirdRoot = true ∧
    txt (r"x") ≠ [] ∧
    cleanHref (urlparse [] (urljoin weirdRoot (txt (r"x")))) = txt (r"://x") ∧
    (urlparse [] (cleanHref (urlparse [] (urljoin weirdRoot (txt (r"x")))))).scheme = [] ∧
    isValidUrl (cleanHref (urlparse [] (urljoin weirdRoot (txt (r"x"))))) = false := by
  refine ⟨by decide, by decide, by decide, by decide, by decide⟩

/-- C6 counterexample: on a web where the root fetch fails, the single
executed iteration performs no sleep, so the delay is not executed in every
iteration independently of fetch success. -/
theorem C6_counterexample_failed_fetch_skips_sleep :
    (crawlRun ([] : Web) (baseNetloc (txt (r"http://h/"))) 1
        (crawlInit (txt (r"http://h/")))).iters = 1 ∧
    (crawlRun ([] : Web) (baseNetloc (txt (r"http://h/"))) 1
        (crawlInit (txt (r"http://h/")))).sleeps = 0 := by
  refine ⟨by decide, by decide⟩

/-! ### Character-class facts, by evaluation over the concrete classes -/

theorem schemeChar_facts : ∀ c ∈ schemeChars,
    lowerChar c ∈ schemeChars ∧ lowerChar c ≠ '?' ∧ lowerChar c ≠ '#' ∧
    lowerChar c ≠ ':' ∧ c ≠ ':' ∧ c ≠ '?' ∧ c ≠ '#' ∧
    c0OrSpace c = false ∧ c ≠ '\t' ∧ c ≠ '\r' ∧ c ≠ '\n' := by decide

theorem letter_facts : ∀ c ∈ asciiLetters,
    lowerChar c ∈ asciiLetters ∧ c ∈ schemeChars := by decide

/-! ### Lemmas about the parsing helpers -/

theorem takeWhile_append_cons {α : Type} {q : α → Bool} {a : List α} {b : α}
    {t : List α} (ha : ∀ c ∈ a, q c = true) (hb : q b = false) :
    (a ++ b :: t).takeWhile q = a ∧ (a ++ b :: t).dropWhile q = b :: t := by
  induction a with
  | nil =>
    simp [List.takeWhile_cons, List.dropWhile_cons, hb]
  | cons x xs ih =>
    have hx : q x = true := ha x (by simp)
    have := ih (fun c hc => ha c (by simp [hc]))
    simp [List.takeWhile_cons, List.dropWhile_cons, hx, this.1, this.2]

theorem removeUnsafe_eq_self {a : Str}
    (h : ∀ c ∈ a, c ≠ '\t' ∧ c ≠ '\r' ∧ c ≠ '\n') : removeUnsafe a = a := by
  rw [removeUnsafe, List.filter_eq_self]
  intro c hc
  obtain ⟨h1, h2, h3⟩ := h c hc
  simp [h1, h2, h3]

theorem removeUnsafe_append (a b : Str) :
    removeUnsafe (a ++ b) = removeUnsafe a ++ removeUnsafe b := by
  simp [removeUnsafe, List.filter_append]

theorem mem_splitParams_fst {u : Str} {c : Char} (h : c ∈ (splitParams u).1) :
    c ∈ u := by
  simp only [splitParams] at h
  split at h
  · rcases List.mem_append.1 h with h1 | h2
    · exact List.take_subset _ _ h1
    · have h3 : c ∈ (u.reverse.takeWhile (fun c => c != '/')).reverse :=
        List.takeWhile_subset _ h2
      have h4 : c ∈ u.reverse := List.takeWhile_subset _ (List.mem_reverse.1 h3)
      exact List.mem_reverse.1 h4
  · exact h

theorem dropWhile_eq_self_of_head {p : Char → Bool} {X : Str}
    (h : ∀ c ∈ X, p c = false) : X.dropWhile p = X := by
  cases X with
  | nil => rfl
  | cons x xs => exact List.dropWhile_cons_of_neg (by simp [h x (by simp)])

theorem stripBoth_eq_self {X : Str} (h : ∀ c ∈ X, c0OrSpace c = false) :
    stripBoth c0OrSpace X = X := by
  rw [stripBoth, dropWhile_eq_self_of_head h,
    dropWhile_eq_self_of_head (fun c hc => h c (List.mem_reverse.1 hc)),
    List.reverse_reverse]

theorem schemeOkB_spec {a : Str} (h : schemeOkB a = true) :
    a ≠ [] ∧ (∀ c ∈ a, c ∈ schemeChars) ∧
    ∃ c0 rest, a = c0 :: rest ∧ c0 ∈ asciiLetters := by
  match a, h with
  | c :: rest, h =>
    rw [schemeOkB, Bool.and_eq_true] at h
    obtain ⟨h1, h2⟩ := h
    refine ⟨by simp, ?_, c, rest, rfl, of_decide_eq_true h1⟩
    intro x hx
    exact of_decide_eq_true (List.all_eq_true.1 h2 x hx)

theorem schemeOkB_map_lower {a : Str} (h : schemeOkB a = true) :
    schemeOkB (a.map lowerChar) = true ∧
    (∀ c ∈ a.map lowerChar, c ∈ schemeChars) ∧
    (∀ c ∈ a.map lowerChar,
      c ≠ ':' ∧ c ≠ '?' ∧ c ≠ '#' ∧ c ≠ '\t' ∧ c ≠ '\r' ∧ c ≠ '\n' ∧
      c0OrSpace c = false) := by
  obtain ⟨hne, hall, c0, rest, hshape, hletter⟩ := schemeOkB_spec h
  have hmem : ∀ c ∈ a.map lowerChar, c ∈ schemeChars := by
    intro c hc
    obtain ⟨y, hy, rfl⟩ := List.mem_map.1 hc
    exact (schemeChar_facts y (hall y hy)).1
  refine ⟨?_, hmem, ?_⟩
  · subst hshape
    rw [List.map_cons, schemeOkB, Bool.and_eq_true]
    constructor
    · exact decide_eq_true ((letter_facts c0 hletter).1)
    · rw [List.all_eq_true]
      intro x hx
      exact decide_eq_true (hmem x (by simpa using hx))
  · intro c hc
    obtain ⟨y, hy, rfl⟩ := List.mem_map.1 hc
    have hy' := hall y hy
    obtain ⟨f1, f2, f3, f4, _, _, _, _, _, _, _⟩ := schemeChar_facts y hy'
    have hsc : lowerChar y ∈ schemeChars := f1
    obtain ⟨_, _, _, _, g5, g6, g7, g8, g9, g10, g11⟩ :=
      schemeChar_facts (lowerChar y) hsc
    exact ⟨g5, g6, g7, g9, g10, g11, g8⟩

theorem mem_splitNetloc_fst {s : Str} {c : Char} (h : c ∈ (splitNetloc s).1) :
    netlocDelim c = false ∧ c ∈ s := by
  rw [splitNetloc] at h
  split at h
  · have h1 := List.mem_takeWhile_imp h
    have h2 : c ∈ s.drop 2 := List.takeWhile_subset _ h
    exact ⟨by simpa using h1, List.drop_subset _ _ h2⟩
  · simp at h

theorem path_stage_mem {sch r1 : Str} {c : Char}
    (h : c ∈ (if sch ∈ usesParams
        then splitParams (splitQuery (splitFragment (splitNetloc r1).2).1).1
        else ((splitQuery (splitFragment (splitNetloc r1).2).1).1, ([] : Str))).1) :
    c ≠ '?' ∧ c ≠ '#' := by
  have hq : c ∈ (splitQuery (splitFragment (splitNetloc r1).2).1).1 := by
    split at h
    · exact mem_splitParams_fst h
    · exact h
  have h1 : c ≠ '?' := by
    have := List.mem_takeWhile_imp hq
    simpa using this
  have h2 : c ≠ '#' := by
    have hf : c ∈ (splitFragment (splitNetloc r1).2).1 := List.takeWhile_subset _ hq
    have := List.mem_takeWhile_imp hf
    simpa using this
  exact ⟨h1, h2⟩

theorem urlparse_path_mem {d s : Str} {c : Char}
    (h : c ∈ (urlparse d s).path) : c ≠ '?' ∧ c ≠ '#' := by
  simp only [urlparse] at h
  exact path_stage_mem h

theorem urlparse_netloc_mem {d s : Str} {c : Char}
    (h : c ∈ (urlparse d s).netloc) : netlocDelim c = false := by
  simp only [urlparse] at h
  exact (mem_splitNetloc_fst h).1

theorem urlparse_scheme_cases (d s : Str) :
    ((urlparse d s).scheme = removeUnsafe (stripBoth c0OrSpace d) ∧
      (urlparse [] s).scheme = []) ∨
    ((urlparse d s).scheme = (urlparse [] s).scheme ∧
      ∃ pre, schemeOkB pre = true ∧ (urlparse d s).scheme = pre.map lowerChar) := by
  by_cases hc : (decide (':' ∈ removeUnsafe (s.dropWhile c0OrSpace)) &&
      schemeOkB ((removeUnsafe (s.dropWhile c0OrSpace)).takeWhile (fun c => c != ':'))) = true
  · right
    have hc2 := hc
    rw [Bool.and_eq_true] at hc2
    refine ⟨?_, _, hc2.2, ?_⟩
    · simp only [urlparse]
      rw [if_pos hc, if_pos hc]
    · simp only [urlparse]
      rw [if_pos hc]
  · left
    refine ⟨?_, ?_⟩
    · simp only [urlparse]
      rw [if_neg hc]
    · simp only [urlparse]
      rw [if_neg hc]
      decide

theorem urlparse_scheme_of_colon {a t : Str} (ha : schemeOkB a = true) :
    (urlparse [] (a ++ ':' :: t)).scheme = a.map lowerChar := by
  obtain ⟨hne, hall, c0, rest, hshape, hletter⟩ := schemeOkB_spec ha
  have hfacts : ∀ c ∈ a, c ≠ ':' ∧ c ≠ '\t' ∧ c ≠ '\r' ∧ c ≠ '\n' ∧
      c0OrSpace c = false := by
    intro c hc
    obtain ⟨_, _, _, _, g5, _, _, g8, g9, g10, g11⟩ := schemeChar_facts c (hall c hc)
    exact ⟨g5, g9, g10, g11, g8⟩
  have hdrop : (a ++ ':' :: t).dropWhile c0OrSpace = a ++ ':' :: t := by
    rw [hshape]
    exact List.dropWhile_cons_of_neg (by simp [(hfacts c0 (by rw [hshape]; simp)).2.2.2.2])
  have hsafe : removeUnsafe (a ++ ':' :: t) = a ++ ':' :: removeUnsafe t := by
    rw [removeUnsafe_append, removeUnsafe_eq_self (fun c hc => ⟨(hfacts c hc).2.1,
      (hfacts c hc).2.2.1, (hfacts c hc).2.2.2.1⟩)]
    congr 1
  have htw : (a ++ ':' :: removeUnsafe t).takeWhile (fun c => c != ':') = a :=
    (takeWhile_append_cons (fun c hc => by simp [(hfacts c hc).1]) (by decide)).1
  have hu0 : removeUnsafe ((a ++ ':' :: t).dropWhile c0OrSpace) = a ++ ':' :: removeUnsafe t := by
    rw [hdrop, hsafe]
  have hcolon : (':' : Char) ∈ a ++ ':' :: removeUnsafe t := by simp
  have hcond : (decide ((':' : Char) ∈ removeUnsafe ((a ++ ':' :: t).dropWhile c0OrSpace)) &&
      schemeOkB ((removeUnsafe ((a ++ ':' :: t).dropWhile c0OrSpace)).takeWhile
        (fun c => c != ':'))) = true := by
    rw [hu0, htw]
    simp [hcolon, ha]
  simp only [urlparse]
  rw [if_pos hcond, hu0, htw]

theorem urlunsplit_shape (scheme nl path qy fr : Str) (h : scheme ≠ []) :
    ∃ t, urlunsplit scheme nl path qy fr = scheme ++ ':' :: t := by
  refine ⟨((if nl ≠ [] ∨ (scheme ≠ [] ∧ scheme ∈ usesNetloc ∧ path.take 2 ≠ ['/', '/']) then
      ['/', '/'] ++ nl ++ (if path ≠ [] ∧ path.take 1 ≠ ['/'] then '/' :: path else path)
    else path) ++ (if qy ≠ [] then '?' :: qy else []) ++
      (if fr ≠ [] then '#' :: fr else [])), ?_⟩
  simp only [urlunsplit]
  rw [if_pos h]
  split
  · split
    · simp_all [List.append_assoc]
    · simp_all [List.append_assoc]
  · split
    · simp_all [List.append_assoc]
    · simp_all [List.append_assoc]

theorem urlunparse_reparse_scheme {q : UrlParts} (hok : schemeOkB q.scheme = true) :
    (urlparse [] (urlunparse q)).scheme = q.scheme.map lowerChar := by
  have hne : q.scheme ≠ [] := (schemeOkB_spec hok).1
  obtain ⟨t, ht⟩ := urlunsplit_shape q.scheme q.netloc
    (if q.params ≠ [] then q.path ++ ';' :: q.params else q.path)
    q.query q.fragment hne
  rw [urlunparse, ht]
  exact urlparse_scheme_of_colon hok

theorem urlparse_scheme_mem {s : Str} {c : Char}
    (h : c ∈ (urlparse [] s).scheme) : c ∈ schemeChars := by
  rcases urlparse_scheme_cases [] s with ⟨h1, _⟩ | ⟨_, pre, hok, h2⟩
  · rw [h1] at h
    have : removeUnsafe (stripBoth c0OrSpace []) = ([] : Str) := by decide
    rw [this] at h
    simp at h
  · rw [h2] at h
    exact (schemeOkB_map_lower hok).2.1 c h

theorem cleanHref_no_query_fragment (s : Str) :
    '?' ∉ cleanHref (urlparse [] s) ∧ '#' ∉ cleanHref (urlparse [] s) := by
  have hsep : ∀ c ∈ txt (r"://"), c ≠ '?' ∧ c ≠ '#' := by decide
  constructor <;>
  · intro h
    rw [cleanHref] at h
    rcases List.mem_append.1 h with h1 | h6
    · rcases List.mem_append.1 h1 with h2 | h5
      · rcases List.mem_append.1 h2 with h3 | h4
        · have := urlparse_scheme_mem h3
          have := schemeChar_facts _ this
          simp_all
        · have := hsep _ h4
          simp_all
      · have := urlparse_netloc_mem h5
        simp [netlocDelim] at this
    · have := urlparse_path_mem h6
      simp_all

theorem clean_reparse_scheme {s : Str} (h : (urlparse [] s).scheme ≠ []) :
    (urlparse [] (cleanHref (urlparse [] s))).scheme ≠ [] := by
  rcases urlparse_scheme_cases [] s with ⟨h1, _⟩ | ⟨_, pre, hok, h2⟩
  · exact absurd (by rw [h1]; decide) h
  · have hok2 : schemeOkB ((urlparse [] s).scheme) = true := by
      rw [h2]; exact (schemeOkB_map_lower hok).1
    have hshape : cleanHref (urlparse [] s) =
        (urlparse [] s).scheme ++ ':' ::
          ('/' :: '/' :: ((urlparse [] s).netloc ++ (urlparse [] s).path)) := by
      rw [cleanHref]
      have : txt (r"://") = [':', '/', '/'] := by decide
      rw [this]
      simp
    rw [hshape, urlparse_scheme_of_colon hok2]
    simp [h]

theorem map_lowerChar_ne_nil {a : Str} (h : a ≠ []) : a.map lowerChar ≠ [] := by
  simp [h]

theorem urljoin_scheme_nonempty {base url : Str}
    (hb : (urlparse [] base).scheme ≠ []) (hrel : (urlparse [] base).scheme ∈ usesRelative)
    (hu : url ≠ []) : (urlparse [] (urljoin base url)).scheme ≠ [] := by
  have hbase_ne : base ≠ [] := by
    intro e
    apply hb
    rw [e]
    decide
  rcases urlparse_scheme_cases [] base with ⟨h1, _⟩ | ⟨_, pre0, hok0, hBmap⟩
  · exact absurd (by rw [h1]; decide) hb
  have hokB : schemeOkB (urlparse [] base).scheme = true := by
    rw [hBmap]
    exact (schemeOkB_map_lower hok0).1
  have hBchars := (schemeOkB_map_lower hok0).2.2
  simp only [urljoin]
  rw [if_neg hbase_ne, if_neg hu]
  by_cases hearly : (urlparse (urlparse [] base).scheme url).scheme ≠
      (urlparse [] base).scheme ∨
      (urlparse (urlparse [] base).scheme url).scheme ∉ usesRelative
  · rw [if_pos hearly]
    rcases urlparse_scheme_cases ((urlparse [] base).scheme) url with
      ⟨hd, h0⟩ | ⟨heq, pre1, hok1, hmap1⟩
    · have hBsafe : removeUnsafe (stripBoth c0OrSpace ((urlparse [] base).scheme)) =
          (urlparse [] base).scheme := by
        rw [stripBoth_eq_self, removeUnsafe_eq_self]
        · intro c hc
          have := hBchars c (hBmap ▸ hc)
          exact ⟨this.2.2.2.1, this.2.2.2.2.1, this.2.2.2.2.2.1⟩
        · intro c hc
          exact (hBchars c (hBmap ▸ hc)).2.2.2.2.2.2
      rw [hBsafe] at hd
      rcases hearly with he1 | he2
      · exact absurd hd he1
      · rw [hd] at he2
        exact absurd hrel he2
    · rw [← heq, hmap1]
      exact map_lowerChar_ne_nil (schemeOkB_spec hok1).1
  · rw [if_neg hearly]
    push_neg at hearly
    obtain ⟨heqsch, _⟩ := hearly
    have hUne : (urlparse (urlparse [] base).scheme url).scheme ≠ [] := by
      rw [heqsch]
      exact hb
    have hokU : schemeOkB (urlparse (urlparse [] base).scheme url).scheme = true := by
      rw [heqsch]
      exact hokB
    split
    · rw [urlunparse_reparse_scheme hokU]
      exact map_lowerChar_ne_nil hUne
    · split
      · rw [urlunparse_reparse_scheme]
        · exact map_lowerChar_ne_nil hUne
        · exact hokU
      · rw [urlunparse_reparse_scheme]
        · exact map_lowerChar_ne_nil hUne
        · exact hokU

/-! ### Lemmas about the crawl loop -/

theorem crawlStep_nil {web : Web} {bn : Str} {st : CrawlState}
    (htv : st.toVisit = []) : crawlStep web bn st = st := by
  obtain ⟨v, tv, pgs, f, sl, it⟩ := st
  simp only at htv
  subst htv
  rfl

theorem crawlStep_skip {web : Web} {bn : Str} {st : CrawlState} {current : Str}
    {rest : List Str} (htv : st.toVisit = current :: rest)
    (hmem : current ∈ st.visited) :
    crawlStep web bn st = { st with toVisit := rest, iters := st.iters + 1 } := by
  obtain ⟨v, tv, pgs, f, sl, it⟩ := st
  simp only at htv hmem
  subst htv
  simp only [crawlStep]
  rw [if_pos hmem]

theorem crawlStep_fail {web : Web} {bn : Str} {st : CrawlState} {current : Str}
    {rest : List Str} (htv : st.toVisit = current :: rest)
    (hmem : current ∉ st.visited) (hfp : fetchPage web current = none) :
    crawlStep web bn st = ⟨st.visited ++ [current], rest, st.pages,
      st.fetched ++ [current], st.sleeps, st.iters + 1⟩ := by
  obtain ⟨v, tv, pgs, f, sl, it⟩ := st
  simp only at htv hmem
  subst htv
  simp only [crawlStep]
  rw [if_neg hmem, hfp]

theorem crawlStep_fetch {web : Web} {bn : Str} {st : CrawlState} {current : Str}
    {rest : List Str} {pg : Page} (htv : st.toVisit = current :: rest)
    (hmem : current ∉ st.visited) (hfp : fetchPage web current = some pg) :
    crawlStep web bn st = ⟨st.visited ++ [current],
      (pg.hrefs.foldl (processHref bn current (st.visited ++ [current])) ([], rest)).2,
      st.pages ++ [⟨current, pg.title, List.intercalate (txt (r", "))
        (pg.hrefs.foldl (processHref bn current (st.visited ++ [current])) ([], rest)).1⟩],
      st.fetched ++ [current], st.sleeps + 1, st.iters + 1⟩ := by
  obtain ⟨v, tv, pgs, f, sl, it⟩ := st
  simp only at htv hmem
  subst htv
  simp only [crawlStep]
  rw [if_neg hmem, hfp]

theorem crawlRun_succ_nil {web : Web} {bn : Str} {st : CrawlState} {n : Nat}
    (htv : st.toVisit = []) : crawlRun web bn (n + 1) st = st := by
  obtain ⟨v, tv, pgs, f, sl, it⟩ := st
  simp only at htv
  subst htv
  rfl

theorem crawlRun_succ_cons {web : Web} {bn : Str} {st : CrawlState} {n : Nat}
    {current : Str} {rest : List Str} (htv : st.toVisit = current :: rest) :
    crawlRun web bn (n + 1) st = crawlRun web bn n (crawlStep web bn st) := by
  obtain ⟨v, tv, pgs, f, sl, it⟩ := st
  simp only at htv
  subst htv
  rfl

theorem lookupPage_mem {web : Web} {v : Str} {p : Page}
    (h : lookupPage web v = some p) : (v, p) ∈ web := by
  induction web with
  | nil => simp [lookupPage] at h
  | cons e rest ih =>
    obtain ⟨u, pg⟩ := e
    rw [lookupPage] at h
    split at h
    · simp only [Option.some.injEq] at h
      subst h
      simp_all
    · exact List.mem_cons_of_mem _ (ih h)

theorem fetchPage_mem {web : Web} {v : Str} {p : Page}
    (h : fetchPage web v = some p) : (v, p) ∈ web := by
  rw [fetchPage] at h
  split at h
  · exact lookupPage_mem h
  · simp at h

theorem fetchPage_fetchable {web : Web} {v : Str} {p : Page}
    (h : fetchPage web v = some p) : fetchable v = true := by
  rw [fetchPage] at h
  split at h
  · next hc => exact hc
  · simp at h

theorem cleansOf_subset_universe {web : Web} {root current : Str} {pg : Page}
    (hfp : fetchPage web current = some pg) :
    ∀ u ∈ cleansOf current pg.hrefs, u ∈ urlUniverse web root := by
  intro u hu
  exact List.mem_cons_of_mem _ (List.mem_flatten.2
    ⟨_, List.mem_map.2 ⟨(current, pg), fetchPage_mem hfp, rfl⟩, hu⟩)

theorem processHref_snd (bn current : Str) (visited : List Str)
    (acc : List Str × List Str) (h : Str) :
    (processHref bn current visited acc h).2 = acc.2 ∨
    (h ≠ [] ∧
     (urlparse [] (urljoin current h)).netloc = bn ∧
     containsSub instagramMarker (urlparse [] (urljoin current h)).netloc = false ∧
     (processHref bn current visited acc h).2 =
       acc.2 ++ [cleanHref (urlparse [] (urljoin current h))] ∧
     cleanHref (urlparse [] (urljoin current h)) ∉ visited ∧
     cleanHref (urlparse [] (urljoin current h)) ∉ acc.2) := by
  simp only [processHref]
  split
  · exact Or.inl rfl
  · next hne =>
    split
    · exact Or.inl rfl
    · next hinsta =>
      split
      · next hn =>
        split
        · next hfresh =>
          exact Or.inr ⟨hne, hn, by simpa using hinsta, rfl, hfresh.1, hfresh.2⟩
        · exact Or.inl rfl
      · exact Or.inl rfl

theorem foldl_processHref_mem (bn current : Str) (visited : List Str) :
    ∀ (hrefs : List Str) (acc : List Str × List Str),
      ∀ u ∈ (hrefs.foldl (processHref bn current visited) acc).2,
        u ∈ acc.2 ∨ ∃ h ∈ hrefs, h ≠ [] ∧
          u = cleanHref (urlparse [] (urljoin current h)) ∧
          (urlparse [] (urljoin current h)).netloc = bn ∧ u ∉ visited := by
  intro hrefs
  induction hrefs with
  | nil => exact fun acc u hu => Or.inl hu
  | cons h hs ih =>
    intro acc u hu
    rw [List.foldl_cons] at hu
    rcases ih _ u hu with h1 | ⟨h2, hh2, hne2, he, hn, hv⟩
    · rcases processHref_snd bn current visited acc h with
        he2 | ⟨hne2, hn2, _, he2, hv2, _⟩
      · rw [he2] at h1
        exact Or.inl h1
      · rw [he2] at h1
        rcases List.mem_append.1 h1 with h3 | h4
        · exact Or.inl h3
        · simp only [List.mem_singleton] at h4
          subst h4
          exact Or.inr ⟨h, by simp, hne2, rfl, hn2, hv2⟩
    · exact Or.inr ⟨h2, by simp [hh2], hne2, he, hn, hv⟩

theorem foldl_processHref_nodup (bn current : Str) (visited : List Str) :
    ∀ (hrefs : List Str) (acc : List Str × List Str),
      acc.2.Nodup → (∀ u ∈ acc.2, u ∉ visited) →
      ((hrefs.foldl (processHref bn current visited) acc).2.Nodup ∧
       ∀ u ∈ (hrefs.foldl (processHref bn current visited) acc).2, u ∉ visited) := by
  intro hrefs
  induction hrefs with
  | nil => exact fun acc h1 h2 => ⟨h1, h2⟩
  | cons h hs ih =>
    intro acc h1 h2
    rw [List.foldl_cons]
    rcases processHref_snd bn current visited acc h with he | ⟨_, _, _, he, hv, hn⟩
    · exact ih _ (he ▸ h1) (he ▸ h2)
    · apply ih
      · rw [he, List.nodup_append]
        refine ⟨h1, List.nodup_singleton _, ?_⟩
        intro a ha hmem
        simp only [List.mem_singleton] at hmem
        subst hmem
        exact hn ha
      · rw [he]
        intro u hu
        rcases List.mem_append.1 hu with h3 | h4
        · exact h2 u h3
        · simp only [List.mem_singleton] at h4
          subst h4
          exact hv

theorem foldl_processHref_marker (bn current : Str) (visited : List Str)
    (hbn : containsSub instagramMarker bn = true) :
    ∀ (hrefs : List Str) (acc : List Str × List Str),
      (hrefs.foldl (processHref bn current visited) acc).2 = acc.2 := by
  intro hrefs
  induction hrefs with
  | nil => exact fun acc => rfl
  | cons h hs ih =>
    intro acc
    rw [List.foldl_cons, ih]
    rcases processHref_snd bn current visited acc h with he | ⟨_, hn, hf, _, _, _⟩
    · exact he
    · rw [hn, hbn] at hf
      cases hf

theorem goodState_init (web : Web) (root : Str) :
    GoodState web root (crawlInit root) := by
  refine ⟨List.nodup_nil, List.nodup_singleton _, ?_, ?_, ?_, rfl⟩
  · intro u hu
    simp [crawlInit]
  · intro u hu
    simp only [crawlInit, List.mem_singleton] at hu
    subst hu
    exact List.mem_cons_self _ _
  · intro u hu
    simp [crawlInit] at hu

theorem crawlStep_good {web : Web} {root : Str} (bn : Str) {st : CrawlState}
    (hg : GoodState web root st) : GoodState web root (crawlStep web bn st) := by
  obtain ⟨hvn, htn, hdisj, htu, hvu, hfv⟩ := hg
  cases htv : st.toVisit with
  | nil => rw [crawlStep_nil htv]; exact ⟨hvn, htn, hdisj, htu, hvu, hfv⟩
  | cons current rest =>
    have hcv : current ∉ st.visited := hdisj current (by rw [htv]; simp)
    have hcu : current ∈ urlUniverse web root := htu current (by rw [htv]; simp)
    have hrn : rest.Nodup := by
      have := htv ▸ htn
      exact this.of_cons
    have hcr : current ∉ rest := by
      have := htv ▸ htn
      simp only [List.nodup_cons] at this
      exact this.1
    have hvn' : (st.visited ++ [current]).Nodup := by
      rw [List.nodup_append]
      refine ⟨hvn, List.nodup_singleton _, ?_⟩
      intro a ha hmem
      simp only [List.mem_singleton] at hmem
      subst hmem
      exact hcv ha
    have hdisj' : ∀ u ∈ rest, u ∉ st.visited ++ [current] := by
      intro u hu
      rw [List.mem_append]
      rintro (h1 | h2)
      · exact hdisj u (by rw [htv]; simp [hu]) h1
      · simp only [List.mem_singleton] at h2
        subst h2
        exact hcr hu
    have hru : ∀ u ∈ rest, u ∈ urlUniverse web root :=
      fun u hu => htu u (by rw [htv]; simp [hu])
    have hvu' : ∀ u ∈ st.visited ++ [current], u ∈ urlUniverse web root := by
      intro u hu
      rcases List.mem_append.1 hu with h1 | h2
      · exact hvu u h1
      · simp only [List.mem_singleton] at h2
        subst h2
        exact hcu
    cases hfp : fetchPage web current with
    | none =>
      rw [crawlStep_fail htv hcv hfp]
      exact ⟨hvn', hrn, hdisj', hru, hvu', by rw [hfv]⟩
    | some pg =>
      rw [crawlStep_fetch htv hcv hfp]
      have hfold := foldl_processHref_nodup bn current (st.visited ++ [current])
        pg.hrefs ([], rest) hrn hdisj'
      refine ⟨hvn', hfold.1, hfold.2, ?_, hvu', by rw [hfv]⟩
      intro u hu
      rcases foldl_processHref_mem bn current (st.visited ++ [current])
        pg.hrefs ([], rest) u hu with h1 | ⟨h2, hh2, _, he, hn, hv⟩
      · exact hru u h1
      · refine cleansOf_subset_universe hfp u ?_
        rw [cleansOf]
        exact List.mem_map.2 ⟨h2, hh2, he.symm⟩

theorem nodup_subset_dedup_length {l U : List Str} (hn : l.Nodup)
    (hsub : ∀ u ∈ l, u ∈ U) : l.length ≤ U.dedup.length := by
  have h1 : l ⊆ U.dedup := fun u hu => List.mem_dedup.2 (hsub u hu)
  exact (hn.subperm h1).length_le

theorem measure_step_lt {M a t t' : Nat} (hv : a + 1 ≤ M) (ht' : t' ≤ M) :
    (M - (a + 1)) * (M + 1) + t' < (M - a) * (M + 1) + (t + 1) := by
  have h2 : M - a = (M - (a + 1)) + 1 := by omega
  rw [h2, Nat.add_mul, Nat.one_mul]
  generalize (M - (a + 1)) * (M + 1) = K
  omega

theorem crawlStep_measure {web : Web} {root : Str} (bn : Str) {st : CrawlState}
    (hg : GoodState web root st) (hne : st.toVisit ≠ []) :
    crawlMeasure web root (crawlStep web bn st) < crawlMeasure web root st := by
  have hg' := crawlStep_good bn hg
  obtain ⟨hvn, htn, hdisj, htu, hvu, hfv⟩ := hg
  cases htv : st.toVisit with
  | nil => exact absurd htv hne
  | cons current rest =>
    have hcv : current ∉ st.visited := hdisj current (by rw [htv]; simp)
    have hlenv : st.visited.length + 1 ≤ (urlUniverse web root).dedup.length := by
      have h1 : (st.visited ++ [current]).Nodup := by
        rw [List.nodup_append]
        refine ⟨hvn, List.nodup_singleton _, ?_⟩
        intro a ha hmem
        simp only [List.mem_singleton] at hmem
        subst hmem
        exact hcv ha
      have h2 : ∀ u ∈ st.visited ++ [current], u ∈ urlUniverse web root := by
        intro u hu
        rcases List.mem_append.1 hu with h3 | h4
        · exact hvu u h3
        · simp only [List.mem_singleton] at h4
          subst h4
          exact htu _ (by rw [htv]; simp)
      have := nodup_subset_dedup_length h1 h2
      simpa using this
    cases hfp : fetchPage web current with
    | none =>
      rw [crawlStep_fail htv hcv hfp]
      simp only [crawlMeasure, List.length_append, List.length_singleton, htv,
        List.length_cons]
      exact measure_step_lt hlenv (by
        have h3 : rest.Nodup := (htv ▸ htn).of_cons
        have h4 : ∀ u ∈ rest, u ∈ urlUniverse web root :=
          fun u hu => htu u (by rw [htv]; simp [hu])
        have := nodup_subset_dedup_length h3 h4
        omega)
    | some pg =>
      rw [crawlStep_fetch htv hcv hfp] at hg' ⊢
      obtain ⟨_, hfn, _, hfu, _, _⟩ := hg'
      simp only [crawlMeasure, List.length_append, List.length_singleton, htv,
        List.length_cons]
      exact measure_step_lt hlenv (by
        have := nodup_subset_dedup_length hfn hfu
        simpa using this)

theorem crawlRun_good {web : Web} {root : Str} (bn : Str) :
    ∀ (fuel : Nat) (st : CrawlState), GoodState web root st →
      GoodState web root (crawlRun web bn fuel st) := by
  intro fuel
  induction fuel with
  | zero => exact fun st hg => hg
  | succ n ih =>
    intro st hg
    cases htv : st.toVisit with
    | nil => rw [crawlRun_succ_nil htv]; exact hg
    | cons current rest =>
      rw [crawlRun_succ_cons htv]
      exact ih _ (crawlStep_good bn hg)

theorem crawlRun_exhausts {web : Web} {root : Str} (bn : Str) :
    ∀ (k : Nat) (st : CrawlState), GoodState web root st →
      crawlMeasure web root st ≤ k → (crawlRun web bn k st).toVisit = [] := by
  intro k
  induction k with
  | zero =>
    intro st hg hm
    have h1 : st.toVisit.length ≤ crawlMeasure web root st := by
      rw [crawlMeasure]
      exact Nat.le_add_left _ _
    have h2 : st.toVisit.length = 0 := by omega
    have h3 : st.toVisit = [] := List.length_eq_zero.1 h2
    rw [crawlRun]
    exact h3
  | succ n ih =>
    intro st hg hm
    cases htv : st.toVisit with
    | nil => rw [crawlRun_succ_nil htv]; exact htv
    | cons current rest =>
      rw [crawlRun_succ_cons htv]
      refine ih _ (crawlStep_good bn hg) ?_
      have := crawlStep_measure bn hg (by rw [htv]; simp)
      omega

theorem crawlRun_count (web : Web) (bn : Str) :
    ∀ (fuel : Nat) (st : CrawlState) (u : Str), u ∈ st.visited →
      ((crawlRun web bn fuel st).fetched.count u = st.fetched.count u ∧
       u ∈ (crawlRun web bn fuel st).visited) := by
  intro fuel
  induction fuel with
  | zero => exact fun st u hu => ⟨rfl, hu⟩
  | succ n ih =>
    intro st u hu
    cases htv : st.toVisit with
    | nil => rw [crawlRun_succ_nil htv]; exact ⟨rfl, hu⟩
    | cons current rest =>
      rw [crawlRun_succ_cons htv]
      by_cases hcv : current ∈ st.visited
      · rw [crawlStep_skip htv hcv]
        exact ih _ u hu
      · have hne : current ≠ u := fun e => hcv (e ▸ hu)
        have hcount : (st.fetched ++ [current]).count u = st.fetched.count u := by
          rw [List.count_append, List.count_singleton]
          simp [hne]
        cases hfp : fetchPage web current with
        | none =>
          rw [crawlStep_fail htv hcv hfp]
          have := ih ⟨st.visited ++ [current], rest, st.pages,
            st.fetched ++ [current], st.sleeps, st.iters + 1⟩ u (by simp [hu])
          rw [hcount] at this
          exact this
        | some pg =>
          rw [crawlStep_fetch htv hcv hfp]
          have := ih ⟨st.visited ++ [current],
            (pg.hrefs.foldl (processHref bn current (st.visited ++ [current])) ([], rest)).2,
            st.pages ++ [⟨current, pg.title, List.intercalate (txt (r", "))
              (pg.hrefs.foldl (processHref bn current (st.visited ++ [current])) ([], rest)).1⟩],
            st.fetched ++ [current], st.sleeps + 1, st.iters + 1⟩ u (by simp [hu])
          rw [hcount] at this
          exact this

theorem crawlRun_sleeps {web : Web} {bn : Str} :
    ∀ (fuel : Nat) (st : CrawlState), st.sleeps = st.pages.length →
      (crawlRun web bn fuel st).sleeps = (crawlRun web bn fuel st).pages.length := by
  intro fuel
  induction fuel with
  | zero => exact fun st h => h
  | succ n ih =>
    intro st h
    cases htv : st.toVisit with
    | nil => rw [crawlRun_succ_nil htv]; exact h
    | cons current rest =>
      rw [crawlRun_succ_cons htv]
      by_cases hcv : current ∈ st.visited
      · rw [crawlStep_skip htv hcv]
        exact ih _ (by simp [h])
      · cases hfp : fetchPage web current with
        | none =>
          rw [crawlStep_fail htv hcv hfp]
          exact ih _ (by simp [h])
        | some pg =>
          rw [crawlStep_fetch htv hcv hfp]
          exact ih _ (by simp [h])

theorem crawlRun_insta_frontier {web : Web} {bn root : Str}
    (hbn : containsSub instagramMarker bn = true) :
    ∀ (fuel : Nat) (st : CrawlState), (st.toVisit = [root] ∨ st.toVisit = []) →
      ((crawlRun web bn fuel st).toVisit = [root] ∨
       (crawlRun web bn fuel st).toVisit = []) := by
  intro fuel
  induction fuel with
  | zero => exact fun st h => h
  | succ n ih =>
    intro st h
    rcases h with h | h
    · rw [crawlRun_succ_cons h]
      apply ih
      right
      by_cases hcv : root ∈ st.visited
      · rw [crawlStep_skip h hcv]
      · cases hfp : fetchPage web root with
        | none => rw [crawlStep_fail h hcv hfp]
        | some pg =>
          rw [crawlStep_fetch h hcv hfp]
          simp only
          exact foldl_processHref_marker bn root (st.visited ++ [root]) hbn
            pg.hrefs ([], [])
    · rw [crawlRun_succ_nil h]
      exact Or.inr h

/-- C1: crawl_website fetches each URL at most once per invocation (the fetch
log is duplicate free at every fuel) and terminates once the frontier is
exhausted (some fuel empties the frontier); a URL popped from the frontier
that is already visited is discarded as a no-op, and a popped unvisited URL is
in the visited set of the resulting state, before any further processing. -/
theorem C1_fetch_at_most_once_and_termination (web : Web) (root : Str) :
    (∀ fuel, (crawlRun web (baseNetloc root) fuel (crawlInit root)).fetched.Nodup) ∧
    (∃ fuel, (crawlRun web (baseNetloc root) fuel (crawlInit root)).toVisit = []) ∧
    (∀ (st : CrawlState) (current : Str) (rest : List Str),
      st.toVisit = current :: rest → current ∈ st.visited →
      crawlStep web (baseNetloc root) st =
        { st with toVisit := rest, iters := st.iters + 1 }) ∧
    (∀ (st : CrawlState) (current : Str) (rest : List Str),
      st.toVisit = current :: rest → current ∉ st.visited →
      current ∈ (crawlStep web (baseNetloc root) st).visited) := by
  refine ⟨?_, ?_, ?_, ?_⟩
  · intro fuel
    have hg := crawlRun_good (baseNetloc root) fuel (crawlInit root)
      (goodState_init web root)
    rw [hg.2.2.2.2.2]
    exact hg.1
  · exact ⟨crawlMeasure web root (crawlInit root),
      crawlRun_exhausts (baseNetloc root) _ _ (goodState_init web root) le_rfl⟩
  · exact fun st current rest htv hmem => crawlStep_skip htv hmem
  · intro st current rest htv hmem
    cases hfp : fetchPage web current with
    | none => rw [crawlStep_fail htv hmem hfp]; simp
    | some pg => rw [crawlStep_fetch htv hmem hfp]; simp

/-- C1 witness: the guarantees of the previous theorem evaluated on the
concrete breadth-first example web. -/
theorem C1_witness :
    (crawlRun webBfs (baseNetloc bfsRoot) 10 (crawlInit bfsRoot)).fetched.Nodup ∧
    (∃ fuel, (crawlRun webBfs (baseNetloc bfsRoot) fuel (crawlInit bfsRoot)).toVisit = []) ∧
    crawlStep webBfs (baseNetloc bfsRoot)
        ⟨[bfsRoot], [bfsRoot], [], [bfsRoot], 0, 1⟩ =
      ⟨[bfsRoot], [], [], [bfsRoot], 0, 2⟩ ∧
    bfsRoot ∈ (crawlStep webBfs (baseNetloc bfsRoot) (crawlInit bfsRoot)).visited :=
  ⟨(C1_fetch_at_most_once_and_termination webBfs bfsRoot).1 10,
   (C1_fetch_at_most_once_and_termination webBfs bfsRoot).2.1,
   (C1_fetch_at_most_once_and_termination webBfs bfsRoot).2.2.1
     ⟨[bfsRoot], [bfsRoot], [], [bfsRoot], 0, 1⟩ bfsRoot [] rfl (by decide),
   (C1_fetch_at_most_once_and_termination webBfs bfsRoot).2.2.2
     (crawlInit bfsRoot) bfsRoot [] rfl (by decide)⟩

/-- C3 (amended): for every base URL and nonempty raw href, the normalized
form contains no question mark and no hash character; when the base moreover
parses with a nonempty scheme admitting relative references (any http or
https URL does), the resolution result has a nonempty scheme and the
normalized form re-parses with a nonempty scheme, hence is absolute.  Without
that proviso absoluteness can fail, as the counterexample shows. -/
theorem C3_amended_normalization (base href : Str) (hh : href ≠ []) :
    ('?' ∉ cleanHref (urlparse [] (urljoin base href)) ∧
     '#' ∉ cleanHref (urlparse [] (urljoin base href))) ∧
    ((urlparse [] base).scheme ≠ [] → (urlparse [] base).scheme ∈ usesRelative →
      (urlparse [] (urljoin base href)).scheme ≠ [] ∧
      (urlparse [] (cleanHref (urlparse [] (urljoin base href)))).scheme ≠ []) := by
  refine ⟨cleanHref_no_query_fragment _, fun hb hrel => ?_⟩
  have h1 := urljoin_scheme_nonempty hb hrel hh
  exact ⟨h1, clean_reparse_scheme h1⟩

/-- C3 witness: the amended normalization guarantees evaluated at a concrete
base and href carrying both a query and a fragment. -/
theorem C3_amended_witness :
    txt (r"a?b#c") ≠ [] ∧
    (('?' ∉ cleanHref (urlparse [] (urljoin (txt (r"http://h/x")) (txt (r"a?b#c")))) ∧
      '#' ∉ cleanHref (urlparse [] (urljoin (txt (r"http://h/x")) (txt (r"a?b#c"))))) ∧
     ((urlparse [] (txt (r"http://h/x"))).scheme ≠ [] →
      (urlparse [] (txt (r"http://h/x"))).scheme ∈ usesRelative →
      (urlparse [] (urljoin (txt (r"http://h/x")) (txt (r"a?b#c")))).scheme ≠ [] ∧
      (urlparse [] (cleanHref (urlparse []
        (urljoin (txt (r"http://h/x")) (txt (r"a?b#c")))))).scheme ≠ [])) :=
  ⟨by decide,
   C3_amended_normalization (txt (r"http://h/x")) (txt (r"a?b#c")) (by decide)⟩

/-! ### The fetch gate and what it yields for the crawl base URLs -/

theorem startsWithSub_iff : ∀ (p s : Str), startsWithSub p s = true ↔ ∃ t, s = p ++ t := by
  intro p
  induction p with
  | nil =>
    intro s
    simp [startsWithSub]
  | cons c cs ih =>
    intro s
    cases s with
    | nil => simp [startsWithSub]
    | cons d ds =>
      rw [startsWithSub, Bool.and_eq_true]
      constructor
      · rintro ⟨h1, h2⟩
        obtain ⟨t, ht⟩ := (ih ds).1 h2
        refine ⟨t, ?_⟩
        have hc : c = d := by simpa using h1
        rw [List.cons_append, ← hc, ht]
      · rintro ⟨t, ht⟩
        rw [List.cons_append] at ht
        injection ht with h1 h2
        exact ⟨by simp [h1], (ih ds).2 ⟨t, h2⟩⟩

theorem lowerPairs_facts : ∀ pr ∈ lowerPairs,
    pr.1 ∈ asciiLetters ∧ pr.1 ∈ schemeChars ∧ c0OrSpace pr.1 = false ∧
    pr.2 ≠ ':' ∧ pr.2 ≠ '/' := by decide

theorem lowerChar_cases (d c : Char) (h : lowerChar d = c) :
    d = c ∨ (d, c) ∈ lowerPairs := by
  rw [lowerChar] at h
  cases hf : lowerPairs.find? (fun p => p.1 == d) with
  | none =>
    rw [hf] at h
    exact Or.inl h
  | some pr =>
    rw [hf] at h
    have hmem := List.mem_of_find?_eq_some hf
    have hd := List.find?_some hf
    right
    obtain ⟨a, b⟩ := pr
    have h' : b = c := h
    have hd' : a = d := by simpa using hd
    rw [← hd', ← h']
    exact hmem

theorem lowerChar_scheme_char {d c : Char} (h : lowerChar d = c)
    (hc : c ∈ schemeChars) : d ∈ schemeChars := by
  rcases lowerChar_cases d c h with h1 | h1
  · rw [h1]; exact hc
  · exact (lowerPairs_facts _ h1).2.1

theorem lowerChar_letter {d c : Char} (h : lowerChar d = c)
    (hc : c ∈ asciiLetters) : d ∈ asciiLetters := by
  rcases lowerChar_cases d c h with h1 | h1
  · rw [h1]; exact hc
  · exact (lowerPairs_facts _ h1).1

theorem lowerChar_to_colon {d : Char} (h : lowerChar d = ':') : d = ':' := by
  rcases lowerChar_cases d ':' h with h1 | h1
  · exact h1
  · exact absurd rfl (lowerPairs_facts _ h1).2.2.2.1

theorem requestable_scheme {u : Str} (h : requestableUrl u = true) :
    (urlparse [] u).scheme = txt (r"http") ∨
    (urlparse [] u).scheme = txt (r"https") := by
  rw [requestableUrl, Bool.or_eq_true] at h
  have hpre1 : txt (r"http://") =
      'h' :: 't' :: 't' :: 'p' :: ':' :: '/' :: '/' :: [] := by decide
  have hpre2 : txt (r"https://") =
      'h' :: 't' :: 't' :: 'p' :: 's' :: ':' :: '/' :: '/' :: [] := by decide
  rcases h with h | h
  · left
    obtain ⟨t, ht⟩ := (startsWithSub_iff _ _).1 h
    rw [hpre1] at ht
    cases u with
    | nil => simp at ht
    | cons d0 u =>
    cases u with
    | nil => simp at ht
    | cons d1 u =>
    cases u with
    | nil => simp at ht
    | cons d2 u =>
    cases u with
    | nil => simp at ht
    | cons d3 u =>
    cases u with
    | nil => simp at ht
    | cons d4 u =>
      simp only [List.map_cons, List.cons_append, List.nil_append,
        List.cons.injEq] at ht
      obtain ⟨h0, h1, h2, h3, h4, _⟩ := ht
      have hd4 : d4 = ':' := lowerChar_to_colon h4
      subst hd4
      have hok : schemeOkB [d0, d1, d2, d3] = true := by
        rw [schemeOkB, Bool.and_eq_true]
        refine ⟨decide_eq_true (lowerChar_letter h0 (by decide)), ?_⟩
        rw [List.all_eq_true]
        intro x hx
        simp only [List.mem_cons, List.not_mem_nil, or_false] at hx
        rcases hx with rfl | rfl | rfl | rfl
        · exact decide_eq_true (lowerChar_scheme_char h0 (by decide))
        · exact decide_eq_true (lowerChar_scheme_char h1 (by decide))
        · exact decide_eq_true (lowerChar_scheme_char h2 (by decide))
        · exact decide_eq_true (lowerChar_scheme_char h3 (by decide))
      show (urlparse [] ([d0, d1, d2, d3] ++ ':' :: u)).scheme = txt (r"http")
      rw [urlparse_scheme_of_colon hok]
      simp only [List.map_cons, List.map_nil, h0, h1, h2, h3]
      decide
  · right
    obtain ⟨t, ht⟩ := (startsWithSub_iff _ _).1 h
    rw [hpre2] at ht
    cases u with
    | nil => simp at ht
    | cons d0 u =>
    cases u with
    | nil => simp at ht
    | cons d1 u =>
    cases u with
    | nil => simp at ht
    | cons d2 u =>
    cases u with
    | nil => simp at ht
    | cons d3 u =>
    cases u with
    | nil => simp at ht
    | cons d4 u =>
    cases u with
    | nil => simp at ht
    | cons d5 u =>
      simp only [List.map_cons, List.cons_append, List.nil_append,
        List.cons.injEq] at ht
      obtain ⟨h0, h1, h2, h3, h4, h5, _⟩ := ht
      have hd5 : d5 = ':' := lowerChar_to_colon h5
      subst hd5
      have hok : schemeOkB [d0, d1, d2, d3, d4] = true := by
        rw [schemeOkB, Bool.and_eq_true]
        refine ⟨decide_eq_true (lowerChar_letter h0 (by decide)), ?_⟩
        rw [List.all_eq_true]
        intro x hx
        simp only [List.mem_cons, List.not_mem_nil, or_false] at hx
        rcases hx with rfl | rfl | rfl | rfl | rfl
        · exact decide_eq_true (lowerChar_scheme_char h0 (by decide))
        · exact decide_eq_true (lowerChar_scheme_char h1 (by decide))
        · exact decide_eq_true (lowerChar_scheme_char h2 (by decide))
        · exact decide_eq_true (lowerChar_scheme_char h3 (by decide))
        · exact decide_eq_true (lowerChar_scheme_char h4 (by decide))
      show (urlparse [] ([d0, d1, d2, d3, d4] ++ ':' :: u)).scheme = txt (r"https")
      rw [urlparse_scheme_of_colon hok]
      simp only [List.map_cons, List.map_nil, h0, h1, h2, h3, h4]
      decide

theorem fetchable_spec {v : Str} (h : fetchable v = true) :
    ((urlparse [] v).scheme = txt (r"http") ∨
     (urlparse [] v).scheme = txt (r"https")) ∧
    (urlparse [] v).netloc ≠ [] := by
  rw [fetchable, Bool.and_eq_true] at h
  refine ⟨requestable_scheme h.1, ?_⟩
  intro he
  have h2 := h.2
  rw [he] at h2
  simp at h2

/-! ### Re-parsing a canonical URL recovers its host -/

theorem mem_removeUnsafe_safe {X : Str} {c : Char} (h : c ∈ removeUnsafe X) :
    c ≠ '\t' ∧ c ≠ '\r' ∧ c ≠ '\n' := by
  rw [removeUnsafe] at h
  have h2 := (List.mem_filter.1 h).2
  simp [not_or] at h2
  exact ⟨h2.1.1, h2.1.2, h2.2⟩

theorem stage_r1_subset {P : Prop} [Decidable P] {u0 : Str} {c : Char}
    (h : c ∈ (if P then (u0.dropWhile (fun c => c != ':')).drop 1 else u0)) :
    c ∈ u0 := by
  split at h
  · have h2 : c ∈ u0.dropWhile (fun c => c != ':') := List.drop_subset _ _ h
    have h3 := List.takeWhile_append_dropWhile (fun c => c != ':') u0
    rw [← h3]
    exact List.mem_append_right _ h2
  · exact h

theorem mem_splitNetloc_snd {s : Str} {c : Char} (h : c ∈ (splitNetloc s).2) :
    c ∈ s := by
  rw [splitNetloc] at h
  split at h
  · have h2 : c ∈ s.drop 2 := by
      have h3 := List.takeWhile_append_dropWhile (fun c => !netlocDelim c) (s.drop 2)
      rw [← h3]
      exact List.mem_append_right _ h
    exact List.drop_subset _ _ h2
  · exact h

theorem path_stage_subset {sch r1 : Str} {c : Char}
    (h : c ∈ (if sch ∈ usesParams
        then splitParams (splitQuery (splitFragment (splitNetloc r1).2).1).1
        else ((splitQuery (splitFragment (splitNetloc r1).2).1).1, ([] : Str))).1) :
    c ∈ r1 := by
  have hq : c ∈ (splitQuery (splitFragment (splitNetloc r1).2).1).1 := by
    split at h
    · exact mem_splitParams_fst h
    · exact h
  have hf : c ∈ (splitFragment (splitNetloc r1).2).1 := List.takeWhile_subset _ hq
  have hr : c ∈ (splitNetloc r1).2 := List.takeWhile_subset _ hf
  exact mem_splitNetloc_snd hr

theorem urlparse_netloc_safe {d s : Str} {c : Char}
    (h : c ∈ (urlparse d s).netloc) : c ≠ '\t' ∧ c ≠ '\r' ∧ c ≠ '\n' := by
  simp only [urlparse] at h
  exact mem_removeUnsafe_safe (stage_r1_subset (mem_splitNetloc_fst h).2)

theorem urlparse_path_safe {d s : Str} {c : Char}
    (h : c ∈ (urlparse d s).path) : c ≠ '\t' ∧ c ≠ '\r' ∧ c ≠ '\n' := by
  simp only [urlparse] at h
  exact mem_removeUnsafe_safe (stage_r1_subset (path_stage_subset h))

theorem suffix_take_append {A B u : Str} (h : u = A ++ B) :
    u.take (u.length - B.length) ++ B = u := by
  subst h
  have h2 : (A ++ B).length - B.length = A.length := by simp
  rw [h2, List.take_left]

theorem splitParams_append (u : Str) : ∃ t, u = (splitParams u).1 ++ t := by
  simp only [splitParams]
  split
  · refine ⟨((u.reverse.takeWhile (fun c => c != '/')).reverse).dropWhile
      (fun c => c != ';'), ?_⟩
    have hdecomp : u = (u.reverse.dropWhile (fun c => c != '/')).reverse ++
        (u.reverse.takeWhile (fun c => c != '/')).reverse := by
      rw [← List.reverse_append, List.takeWhile_append_dropWhile, List.reverse_reverse]
    rw [List.append_assoc, List.takeWhile_append_dropWhile]
    exact (suffix_take_append hdecomp).symm
  · exact ⟨[], by simp⟩

theorem path_stage_append (sch r2 : Str) :
    ∃ t, r2 = (if sch ∈ usesParams
        then splitParams (splitQuery (splitFragment r2).1).1
        else ((splitQuery (splitFragment r2).1).1, ([] : Str))).1 ++ t := by
  have h3 : ∃ t, r2 = (splitFragment r2).1 ++ t :=
    ⟨r2.dropWhile (fun c => c != '#'), (List.takeWhile_append_dropWhile _ _).symm⟩
  have h2 : ∃ t, (splitFragment r2).1 = (splitQuery (splitFragment r2).1).1 ++ t :=
    ⟨(splitFragment r2).1.dropWhile (fun c => c != '?'),
      (List.takeWhile_append_dropWhile _ _).symm⟩
  obtain ⟨t3, ht3⟩ := h3
  obtain ⟨t2, ht2⟩ := h2
  split
  · obtain ⟨t1, ht1⟩ := splitParams_append (splitQuery (splitFragment r2).1).1
    have e1 : r2 = ((splitQuery (splitFragment r2).1).1 ++ t2) ++ t3 := by
      rw [← ht2]
      exact ht3
    have e2 : r2 = (((splitParams (splitQuery (splitFragment r2).1).1).1 ++ t1) ++
        t2) ++ t3 := by
      rw [← ht1]
      exact e1
    exact ⟨t1 ++ (t2 ++ t3), e2.trans (by simp [List.append_assoc])⟩
  · have e1 : r2 = ((splitQuery (splitFragment r2).1).1 ++ t2) ++ t3 := by
      rw [← ht2]
      exact ht3
    exact ⟨t2 ++ t3, e1.trans (by simp [List.append_assoc])⟩

theorem dropWhile_head_not (p : Char → Bool) : ∀ l : List Char,
    l.dropWhile p = [] ∨ ∃ c t, l.dropWhile p = c :: t ∧ p c = false := by
  intro l
  induction l with
  | nil => exact Or.inl rfl
  | cons x xs ih =>
    rw [List.dropWhile_cons]
    split
    · exact ih
    · next hx => exact Or.inr ⟨x, xs, rfl, by simpa using hx⟩

theorem stage_netloc_path_shape {sch r1 : Str} (hn : (splitNetloc r1).1 ≠ []) :
    (if sch ∈ usesParams
        then splitParams (splitQuery (splitFragment (splitNetloc r1).2).1).1
        else ((splitQuery (splitFragment (splitNetloc r1).2).1).1, ([] : Str))).1 = [] ∨
    ∃ t, (if sch ∈ usesParams
        then splitParams (splitQuery (splitFragment (splitNetloc r1).2).1).1
        else ((splitQuery (splitFragment (splitNetloc r1).2).1).1, ([] : Str))).1 =
      '/' :: t := by
  by_cases hc : r1.take 2 = ['/', '/']
  case neg =>
    exfalso
    apply hn
    rw [splitNetloc, if_neg hc]
  case pos =>
    have hsn : (splitNetloc r1).2 = (r1.drop 2).dropWhile (fun c => !netlocDelim c) := by
      rw [splitNetloc, if_pos hc]
    obtain ⟨t0, ht0⟩ := path_stage_append sch ((splitNetloc r1).2)
    have hPmem : ∀ x ∈ (if sch ∈ usesParams
        then splitParams (splitQuery (splitFragment (splitNetloc r1).2).1).1
        else ((splitQuery (splitFragment (splitNetloc r1).2).1).1, ([] : Str))).1,
        x ≠ '?' ∧ x ≠ '#' := fun x hx => path_stage_mem hx
    revert ht0 hPmem
    generalize (if sch ∈ usesParams
        then splitParams (splitQuery (splitFragment (splitNetloc r1).2).1).1
        else ((splitQuery (splitFragment (splitNetloc r1).2).1).1, ([] : Str))).1 = PS
    intro ht0 hPmem
    rcases dropWhile_head_not (fun c => !netlocDelim c) (r1.drop 2) with hd | ⟨c, t1, hd, hpc⟩
    · left
      have hnil : (splitNetloc r1).2 = [] := by rw [hsn, hd]
      rw [hnil] at ht0
      exact (List.append_eq_nil.1 ht0.symm).1
    · have hcons : (splitNetloc r1).2 = c :: t1 := by rw [hsn, hd]
      rw [hcons] at ht0
      cases PS with
      | nil => exact Or.inl rfl
      | cons c' P' =>
        right
        rw [List.cons_append] at ht0
        injection ht0 with hc1 _
        have hmem := hPmem c' (by simp)
        have hdelim : netlocDelim c' = true := by
          have hpc2 := hpc
          rw [hc1] at hpc2
          simpa using hpc2
        have hslash : c' = '/' := by
          rw [netlocDelim] at hdelim
          simp only [Bool.or_eq_true, beq_iff_eq] at hdelim
          rcases hdelim with (h | h) | h
          · exact h
          · exact absurd h hmem.1
          · exact absurd h hmem.2
        exact ⟨P', by rw [hslash]⟩

theorem urlparse_path_slash {d s : Str} (hn : (urlparse d s).netloc ≠ []) :
    (urlparse d s).path = [] ∨ ∃ t, (urlparse d s).path = '/' :: t := by
  simp only [urlparse] at hn ⊢
  exact stage_netloc_path_shape hn

theorem takeWhile_eq_self_of_all {p : Char → Bool} :
    ∀ {l : List Char}, (∀ c ∈ l, p c = true) → l.takeWhile p = l := by
  intro l
  induction l with
  | nil => intro _; rfl
  | cons x xs ih =>
    intro h
    rw [List.takeWhile_cons_of_pos (h x (by simp)), ih (fun c hc => h c (by simp [hc]))]

theorem urlparse_netloc_of_colon {a t : Str} (ha : schemeOkB a = true) :
    (urlparse [] (a ++ ':' :: t)).netloc = (splitNetloc (removeUnsafe t)).1 := by
  obtain ⟨hne, hall, c0, rest, hshape, hletter⟩ := schemeOkB_spec ha
  have hfacts : ∀ c ∈ a, c ≠ ':' ∧ c ≠ '\t' ∧ c ≠ '\r' ∧ c ≠ '\n' ∧
      c0OrSpace c = false := by
    intro c hc
    obtain ⟨_, _, _, _, g5, _, _, g8, g9, g10, g11⟩ := schemeChar_facts c (hall c hc)
    exact ⟨g5, g9, g10, g11, g8⟩
  have hdrop : (a ++ ':' :: t).dropWhile c0OrSpace = a ++ ':' :: t := by
    rw [hshape]
    exact List.dropWhile_cons_of_neg (by simp [(hfacts c0 (by rw [hshape]; simp)).2.2.2.2])
  have hsafe : removeUnsafe (a ++ ':' :: t) = a ++ ':' :: removeUnsafe t := by
    rw [removeUnsafe_append, removeUnsafe_eq_self (fun c hc => ⟨(hfacts c hc).2.1,
      (hfacts c hc).2.2.1, (hfacts c hc).2.2.2.1⟩)]
    congr 1
  have htw : (a ++ ':' :: removeUnsafe t).takeWhile (fun c => c != ':') = a :=
    (takeWhile_append_cons (fun c hc => by simp [(hfacts c hc).1]) (by decide)).1
  have hdw : (a ++ ':' :: removeUnsafe t).dropWhile (fun c => c != ':') =
      ':' :: removeUnsafe t :=
    (takeWhile_append_cons (fun c hc => by simp [(hfacts c hc).1]) (by decide)).2
  have hu0 : removeUnsafe ((a ++ ':' :: t).dropWhile c0OrSpace) =
      a ++ ':' :: removeUnsafe t := by
    rw [hdrop, hsafe]
  have hcolon : (':' : Char) ∈ a ++ ':' :: removeUnsafe t := by simp
  have hcond : (decide ((':' : Char) ∈ removeUnsafe ((a ++ ':' :: t).dropWhile c0OrSpace)) &&
      schemeOkB ((removeUnsafe ((a ++ ':' :: t).dropWhile c0OrSpace)).takeWhile
        (fun c => c != ':'))) = true := by
    rw [hu0, htw]
    simp [hcolon, ha]
  simp only [urlparse]
  rw [if_pos hcond, hu0, hdw]
  rfl

theorem clean_reparse_netloc {p : UrlParts}
    (hok : schemeOkB p.scheme = true)
    (hnl : ∀ c ∈ p.netloc, netlocDelim c = false ∧ (c ≠ '\t' ∧ c ≠ '\r' ∧ c ≠ '\n'))
    (hpa : ∀ c ∈ p.path, c ≠ '\t' ∧ c ≠ '\r' ∧ c ≠ '\n')
    (hshape : p.path = [] ∨ ∃ t, p.path = '/' :: t) :
    (urlparse [] (cleanHref p)).netloc = p.netloc := by
  have hclean : cleanHref p =
      p.scheme ++ ':' :: ('/' :: '/' :: (p.netloc ++ p.path)) := by
    rw [cleanHref]
    have hsep : txt (r"://") = [':', '/', '/'] := by decide
    rw [hsep]
    simp
  rw [hclean, urlparse_netloc_of_colon hok]
  have hsafe2 : removeUnsafe ('/' :: '/' :: (p.netloc ++ p.path)) =
      '/' :: '/' :: (p.netloc ++ p.path) := by
    apply removeUnsafe_eq_self
    intro c hc
    simp only [List.mem_cons, List.mem_append] at hc
    rcases hc with rfl | rfl | hc | hc
    · exact ⟨by decide, by decide, by decide⟩
    · exact ⟨by decide, by decide, by decide⟩
    · exact (hnl c hc).2
    · exact hpa c hc
  rw [hsafe2, splitNetloc,
    if_pos (by simp : ('/' :: '/' :: (p.netloc ++ p.path)).take 2 = ['/', '/'])]
  have hdrop2 : ('/' :: '/' :: (p.netloc ++ p.path)).drop 2 = p.netloc ++ p.path := rfl
  rw [hdrop2]
  rcases hshape with hp | ⟨t, hp⟩
  · rw [hp, List.append_nil]
    exact takeWhile_eq_self_of_all (fun c hc => by simp [(hnl c hc).1])
  · rw [hp]
    exact (takeWhile_append_cons (fun c hc => by simp [(hnl c hc).1]) (by decide)).1

theorem urlparse_scheme_ok_of_ne {s : Str} (h : (urlparse [] s).scheme ≠ []) :
    schemeOkB (urlparse [] s).scheme = true := by
  rcases urlparse_scheme_cases [] s with ⟨h1, _⟩ | ⟨_, pre, hokp, h2⟩
  · exact absurd (by rw [h1]; decide) h
  · rw [h2]
    exact (schemeOkB_map_lower hokp).1

theorem enqueue_clean_netloc {current href : Str}
    (hsch : (urlparse [] current).scheme = txt (r"http") ∨
            (urlparse [] current).scheme = txt (r"https"))
    (hh : href ≠ [])
    (hne : (urlparse [] (urljoin current href)).netloc ≠ []) :
    (urlparse [] (cleanHref (urlparse [] (urljoin current href)))).netloc =
      (urlparse [] (urljoin current href)).netloc := by
  have hb : (urlparse [] current).scheme ≠ [] := by
    rcases hsch with h | h
    · rw [h]; decide
    · rw [h]; decide
  have hrel : (urlparse [] current).scheme ∈ usesRelative := by
    rcases hsch with h | h
    · rw [h]; decide
    · rw [h]; decide
  have h1 : (urlparse [] (urljoin current href)).scheme ≠ [] :=
    urljoin_scheme_nonempty hb hrel hh
  apply clean_reparse_netloc (urlparse_scheme_ok_of_ne h1)
  · exact fun c hc => ⟨urlparse_netloc_mem hc, urlparse_netloc_safe hc⟩
  · exact fun c hc => urlparse_path_safe hc
  · exact urlparse_path_slash hne

theorem crawlRun_frontier_host {web : Web} {root : Str} :
    ∀ (fuel : Nat) (st : CrawlState),
      (∀ u ∈ st.toVisit, u = root ∨ (urlparse [] u).netloc = baseNetloc root) →
      ∀ u ∈ (crawlRun web (baseNetloc root) fuel st).toVisit,
        u = root ∨ (urlparse [] u).netloc = baseNetloc root := by
  intro fuel
  induction fuel with
  | zero => exact fun st h => h
  | succ n ih =>
    intro st h
    cases htv : st.toVisit with
    | nil => rw [crawlRun_succ_nil htv]; exact h
    | cons current rest =>
      rw [crawlRun_succ_cons htv]
      apply ih
      intro u hu
      by_cases hcv : current ∈ st.visited
      · rw [crawlStep_skip htv hcv] at hu
        simp only at hu
        exact h u (by rw [htv]; simp [hu])
      · cases hfp : fetchPage web current with
        | none =>
          rw [crawlStep_fail htv hcv hfp] at hu
          simp only at hu
          exact h u (by rw [htv]; simp [hu])
        | some pg =>
          have hspec := fetchable_spec (fetchPage_fetchable hfp)
          have hcur := h current (by rw [htv]; simp)
          have hbn : baseNetloc root ≠ [] := by
            rcases hcur with hc | hc
            · rw [baseNetloc, ← hc]
              exact hspec.2
            · rw [← hc]
              exact hspec.2
          rw [crawlStep_fetch htv hcv hfp] at hu
          simp only at hu
          rcases foldl_processHref_mem (baseNetloc root) current
            (st.visited ++ [current]) pg.hrefs ([], rest) u hu with
            h1 | ⟨h2, hh2, hne2, he, hn, _⟩
          · exact h u (by rw [htv]; simp at h1; simp [h1])
          · right
            rw [he, enqueue_clean_netloc hspec.1 hne2 (by rw [hn]; exact hbn)]
            exact hn

/-- C4: at every point during a crawl, every URL in the frontier other than
the seed has a host exactly string-equal to the root URL's host, and a link
is appended to the frontier only when its parsed host equals the root host.
This rests on the fetch gate of requests: only http(s) URLs carrying a host
are ever fetched, so link extraction always runs against an http(s) base, and
every canonical string the crawler stores re-parses with the checked host. -/
theorem C4_frontier_host_invariant (web : Web) (root : Str) :
    (∀ fuel, ∀ u ∈ (crawlRun web (baseNetloc root) fuel (crawlInit root)).toVisit,
      u = root ∨ (urlparse [] u).netloc = baseNetloc root) ∧
    (∀ (current : Str) (visited : List Str) (acc : List Str × List Str)
        (href u : Str),
      u ∈ (processHref (baseNetloc root) current visited acc href).2 →
      u ∈ acc.2 ∨ ((urlparse [] (urljoin current href)).netloc = baseNetloc root ∧
        u = cleanHref (urlparse [] (urljoin current href)))) := by
  constructor
  · intro fuel
    apply crawlRun_frontier_host fuel (crawlInit root)
    intro u hu
    simp only [crawlInit, List.mem_singleton] at hu
    exact Or.inl hu
  · intro current visited acc href u hu
    rcases processHref_snd (baseNetloc root) current visited acc href with
      he | ⟨_, hn, _, he, _, _⟩
    · rw [he] at hu
      exact Or.inl hu
    · rw [he] at hu
      rcases List.mem_append.1 hu with h1 | h2
      · exact Or.inl h1
      · simp only [List.mem_singleton] at h2
        exact Or.inr ⟨hn, h2⟩

/-- C4 witness: the host invariant evaluated on a frontier entry of the
breadth-first example web. -/
theorem C4_witness :
    txt (r"http://s.test/b") ∈
      (crawlRun webBfs (baseNetloc bfsRoot) 1 (crawlInit bfsRoot)).toVisit ∧
    (txt (r"http://s.test/b") = bfsRoot ∨
     (urlparse [] (txt (r"http://s.test/b"))).netloc = baseNetloc bfsRoot) :=
  ⟨by decide, (C4_frontier_host_invariant webBfs bfsRoot).1 1 _ (by decide)⟩

/-- C5 (amended): two URLs whose parses differ at most in query and fragment
canonicalize to the same string, and within one crawl the frontier stays
duplicate free and disjoint from the visited set while the fetch log stays
duplicate free, so a canonical URL already seen is neither enqueued nor
fetched again.  The seed, however, enters the frontier un-normalized, which
is what refutes the claim as stated for the root URL. -/
theorem C5_amended_normalized_dedup (web : Web) (root : Str) :
    (∀ u v : Str, sameUpToQueryFragment u v →
      cleanHref (urlparse [] u) = cleanHref (urlparse [] v)) ∧
    (∀ fuel,
      (crawlRun web (baseNetloc root) fuel (crawlInit root)).toVisit.Nodup ∧
      (∀ u ∈ (crawlRun web (baseNetloc root) fuel (crawlInit root)).toVisit,
        u ∉ (crawlRun web (baseNetloc root) fuel (crawlInit root)).visited) ∧
      (crawlRun web (baseNetloc root) fuel (crawlInit root)).fetched.Nodup) := by
  constructor
  · intro u v h
    obtain ⟨h1, h2, h3, _⟩ := h
    rw [cleanHref, cleanHref, h1, h2, h3]
  · intro fuel
    have hg := crawlRun_good (baseNetloc root) fuel (crawlInit root)
      (goodState_init web root)
    refine ⟨hg.2.1, hg.2.2.1, ?_⟩
    rw [hg.2.2.2.2.2]
    exact hg.1

/-- C5 witness: canonical agreement of a query variant and a fragment
variant, and the dedup guarantees on the concrete query-seed web. -/
theorem C5_amended_witness :
    sameUpToQueryFragment (txt (r"http://h/a?x=1")) (txt (r"http://h/a#f")) ∧
    cleanHref (urlparse [] (txt (r"http://h/a?x=1"))) =
      cleanHref (urlparse [] (txt (r"http://h/a#f"))) ∧
    (crawlRun webQuery (baseNetloc queryRoot) 2 (crawlInit queryRoot)).toVisit.Nodup :=
  ⟨⟨by decide, by decide, by decide, by decide⟩,
   (C5_amended_normalized_dedup webQuery queryRoot).1 _ _
     ⟨by decide, by decide, by decide, by decide⟩,
   ((C5_amended_normalized_dedup webQuery queryRoot).2 2).1⟩

/-- C6 (amended): the one-second delay is executed exactly on the iterations
that emit a page record: at every fuel the number of executed sleeps equals
the number of emitted records, so a failed fetch or a visited-skip iteration
performs no delay — refuting the unconditional-delay claim. -/
theorem C6_amended_sleep_iff_record (web : Web) (root : Str) (fuel : Nat) :
    (crawlRun web (baseNetloc root) fuel (crawlInit root)).sleeps =
      (crawlRun web (baseNetloc root) fuel (crawlInit root)).pages.length :=
  crawlRun_sleeps fuel (crawlInit root) rfl

/-- C7: when the fetch of the popped URL fails, the step emits no record,
leaves the remaining frontier and all previously emitted records unchanged,
logs exactly one fetch attempt for that URL, marks it visited, and the URL is
never fetched again for any amount of further crawling. -/
theorem C7_fetch_failure_isolated (web : Web) (bn : Str) (st : CrawlState)
    (current : Str) (rest : List Str) (htv : st.toVisit = current :: rest)
    (hnv : current ∉ st.visited) (hfp : fetchPage web current = none) :
    crawlStep web bn st = ⟨st.visited ++ [current], rest, st.pages,
      st.fetched ++ [current], st.sleeps, st.iters + 1⟩ ∧
    ∀ fuel, (crawlRun web bn fuel (crawlStep web bn st)).fetched.count current =
      st.fetched.count current + 1 := by
  refine ⟨crawlStep_fail htv hnv hfp, fun fuel => ?_⟩
  rw [crawlStep_fail htv hnv hfp]
  have h := crawlRun_count web bn fuel ⟨st.visited ++ [current], rest, st.pages,
    st.fetched ++ [current], st.sleeps, st.iters + 1⟩ current (by simp)
  rw [h.1, List.count_append, List.count_singleton]
  simp

/-- C7 witness: the failure isolation evaluated for the root fetch on the
empty web. -/
theorem C7_witness :
    fetchPage ([] : Web) (txt (r"http://h/")) = none ∧
    crawlStep ([] : Web) (baseNetloc (txt (r"http://h/"))) (crawlInit (txt (r"http://h/"))) =
      ⟨[txt (r"http://h/")], [], [], [txt (r"http://h/")], 0, 1⟩ ∧
    (crawlRun ([] : Web) (baseNetloc (txt (r"http://h/"))) 3
      (crawlStep ([] : Web) (baseNetloc (txt (r"http://h/")))
        (crawlInit (txt (r"http://h/"))))).fetched.count (txt (r"http://h/")) = 1 :=
  have h := C7_fetch_failure_isolated ([] : Web) (baseNetloc (txt (r"http://h/")))
    (crawlInit (txt (r"http://h/"))) (txt (r"http://h/")) [] rfl (by decide) rfl
  ⟨rfl, h.1, h.2 3⟩

/-- C8: a store row of the selected range whose website value is NaN, empty,
or a sentinel string contributes zero records: its own record list is empty
and the pipeline output equals the output with the row removed. -/
theorem C8_missing_website_skipped (web : Web) (fuel : Nat) (rows : List StoreRow)
    (start count : Nat) (pre suf : List StoreRow) (r : StoreRow)
    (hmiss : websiteMissing r) (hsel : selectRows start count rows = pre ++ r :: suf) :
    storeRecords web fuel r = [] ∧
    mainResults web fuel start count rows = runStores web fuel (pre ++ suf) := by
  have hrec : storeRecords web fuel r = [] := by
    rw [websiteMissing] at hmiss
    cases hcell : cellGet r.website with
    | nan => simp [storeRecords, hcell]
    | text w =>
      rw [hcell] at hmiss
      have hmiss' : w ∈ sentinelWebsites := hmiss
      simp [storeRecords, hcell, hmiss']
  refine ⟨hrec, ?_⟩
  rw [mainResults, hsel, runStores, runStores]
  simp [hrec]

/-- C8 witness: a one-row table whose website cell is NaN contributes no
records and leaves the pipeline output empty. -/
theorem C8_witness :
    websiteMissing ⟨some (.text (txt (r"店"))), some .nan⟩ ∧
    storeRecords ([] : Web) 3 ⟨some (.text (txt (r"店"))), some .nan⟩ = [] ∧
    mainResults ([] : Web) 3 1 1 [⟨some (.text (txt (r"店"))), some .nan⟩] =
      runStores ([] : Web) 3 ([] ++ []) :=
  have h := C8_missing_website_skipped ([] : Web) 3
    [⟨some (.text (txt (r"店"))), some .nan⟩] 1 1 [] []
    ⟨some (.text (txt (r"店"))), some .nan⟩ True.intro (by decide)
  ⟨True.intro, h.1, h.2⟩

/-- C10: Instagram classification takes precedence over the internal check:
an anchor whose resolved host holds the marker substring is added to the
special set and never enqueued, so a crawl whose root host holds the marker
never has any frontier entry beyond the seed. -/
theorem C10_instagram_precedence (web : Web) (root : Str)
    (hroot : containsSub instagramMarker (baseNetloc root) = true) :
    (∀ fuel, (crawlRun web (baseNetloc root) fuel (crawlInit root)).toVisit = [root] ∨
             (crawlRun web (baseNetloc root) fuel (crawlInit root)).toVisit = []) ∧
    (∀ (current : Str) (visited : List Str) (acc : List Str × List Str) (href : Str),
      href ≠ [] →
      containsSub instagramMarker (urlparse [] (urljoin current href)).netloc = true →
      processHref (baseNetloc root) current visited acc href =
        (setAdd acc.1 (cleanHref (urlparse [] (urljoin current href))), acc.2)) := by
  constructor
  · intro fuel
    exact crawlRun_insta_frontier hroot fuel (crawlInit root) (Or.inl rfl)
  · intro current visited acc href hne hmark
    simp only [processHref]
    rw [if_neg hne, if_pos hmark]

/-- C10 witness: the Instagram-rooted web never grows its frontier, and a
concrete marker link lands in the special set with the frontier untouched. -/
theorem C10_witness :
    containsSub instagramMarker (baseNetloc instaRoot) = true ∧
    ((crawlRun webInsta (baseNetloc instaRoot) 5 (crawlInit instaRoot)).toVisit =
        [instaRoot] ∨
     (crawlRun webInsta (baseNetloc instaRoot) 5 (crawlInit instaRoot)).toVisit = []) ∧
    processHref (baseNetloc instaRoot) instaRoot [] (([], []) : List Str × List Str)
        (txt (r"/store")) =
      (setAdd [] (cleanHref (urlparse [] (urljoin instaRoot (txt (r"/store"))))), []) :=
  ⟨by decide,
   (C10_instagram_precedence webInsta instaRoot (by decide)).1 5,
   (C10_instagram_precedence webInsta instaRoot (by decide)).2 instaRoot []
     (([], []) : List Str × List Str) (txt (r"/store")) (by decide) (by decide)⟩

end GoogleMapInfo
